import Mathlib

/-!
Verification development for the BW dependency-analyser core
(`src/bw_utils.py`, with the parser variant of `src/utils.py`).

The Python functions are shallowly embedded as executable Lean
definitions.  Python strings are modelled as Lean `String`
(`List Char` underneath); `str.lower`/`str.upper` are modelled on the
ASCII range (the repository compares against the ASCII literals
`"FM"`, `"KIND"`, `"CALL FUNCTION"`, `"transformations"`, and both the
code and the properties below apply the same case folding to both
sides, so non-ASCII case mappings cancel out).  `csv.reader` (default
dialect but `delimiter=';'`: `quotechar='"'`, `doublequote=True`,
no escape char, non-strict) is modelled by an explicit state machine,
including quoted fields that continue across lines and the
`line contains NUL` error, which the two `parse_dependency_csv`
variants do not catch; a raised exception is modelled as `none`.
The CPython field size limit (131072 chars per field) is not
modelled: inputs are assumed below that limit.
`pandas` operations are modelled by their observable behaviour:
`sort_values` as a stable sort (for descending Series sorts, a stable
ascending sort followed by reversal, which is what `nargsort` does,
with `numpy`'s quicksort being insertion sort - hence stable - on the
small arrays relevant here), `DataFrame(...).sort_values` on an empty
row list as an error (`KeyError` on the missing column), `nunique` as
the number of distinct values, and Python dicts as insertion-ordered
association lists.
-/

/-- Python whitespace characters, as stripped by `str.strip()`
(`Py_UNICODE_ISSPACE`). -/
def isPySpace (c : Char) : Bool :=
  c.val = 0x20 || c.val = 0x09 || c.val = 0x0a || c.val = 0x0b || c.val = 0x0c ||
  c.val = 0x0d || c.val = 0x1c || c.val = 0x1d || c.val = 0x1e || c.val = 0x1f ||
  c.val = 0x85 || c.val = 0xa0 || c.val = 0x1680 ||
  (0x2000 ≤ c.val && c.val ≤ 0x200a) ||
  c.val = 0x2028 || c.val = 0x2029 || c.val = 0x202f || c.val = 0x205f || c.val = 0x3000

/-- `str.strip()` on a character list: drop leading and trailing whitespace. -/
def pyStripChars (cs : List Char) : List Char :=
  ((cs.dropWhile isPySpace).reverse.dropWhile isPySpace).reverse

/-- ASCII uppercase of one character (`str.upper`, ASCII range). -/
def asciiUpper (c : Char) : Char :=
  if 'a' ≤ c && c ≤ 'z' then Char.ofNat (c.toNat - 32) else c

/-- ASCII lowercase of one character (`str.lower`, ASCII range). -/
def asciiLower (c : Char) : Char :=
  if 'A' ≤ c && c ≤ 'Z' then Char.ofNat (c.toNat + 32) else c

/-- `s.lower()` (ASCII range). -/
def pyLower (s : String) : String := ⟨s.data.map asciiLower⟩

/-- `s.strip()`. -/
def pyStrip (s : String) : String := ⟨pyStripChars s.data⟩

/-- `s.strip().upper()`, the normalisation the parser applies to the
`kind` and `location` columns. -/
def stripUpper (s : String) : String := ⟨(pyStripChars s.data).map asciiUpper⟩

/-- Does `pat` occur at the start of `s`? -/
def listStartsWith : List Char → List Char → Bool
  | [], _ => true
  | _ :: _, [] => false
  | p :: ps, c :: cs => p = c && listStartsWith ps cs

/-- Python substring containment `pat in s` on character lists. -/
def containsSub (pat : List Char) : List Char → Bool
  | [] => listStartsWith pat []
  | c :: cs => listStartsWith pat (c :: cs) || containsSub pat cs

/-- Python `pat in s` on strings. -/
def strContains (s pat : String) : Bool := containsSub pat.data s.data

/-- Python `s.endswith(pat)` on strings. -/
def strEndsWith (s pat : String) : Bool :=
  listStartsWith pat.data.reverse s.data.reverse

/-- Split a character list on a separator character, Python
`str.split(sep)` semantics: the result always has one more part than
there are separators; empty parts are kept. -/
def splitCh (sep : Char) : List Char → List (List Char)
  | [] => [[]]
  | c :: rest =>
    if c = sep then [] :: splitCh sep rest
    else
      match splitCh sep rest with
      | [] => [[c]]
      | f :: fs => (c :: f) :: fs

/-- Python `str.splitlines()`: split on the Unicode line boundaries
(LF, VT, FF, CR, FS, GS, RS, NEL, LS, PS), treating CR LF as a single
boundary and producing no trailing empty line. -/
def isLineBoundary (c : Char) : Bool :=
  c.val = 0x0a || c.val = 0x0b || c.val = 0x0c || c.val = 0x0d ||
  c.val = 0x1c || c.val = 0x1d || c.val = 0x1e || c.val = 0x85 ||
  c.val = 0x2028 || c.val = 0x2029

/-- Worker for `pySplitlines`; `acc` is the current line, reversed. -/
def pySplitlinesAux : List Char → List Char → List (List Char)
  | [], [] => []
  | [], acc => [acc.reverse]
  | '\r' :: '\n' :: rest, acc => acc.reverse :: pySplitlinesAux rest []
  | c :: rest, acc =>
    if isLineBoundary c then acc.reverse :: pySplitlinesAux rest []
    else pySplitlinesAux rest (c :: acc)

/-- `text.splitlines()` on a character list. -/
def pySplitlines (cs : List Char) : List (List Char) := pySplitlinesAux cs []

/-- Boolean lexicographic comparison of character lists by code point,
matching Python string comparison. -/
def lexLe : List Char → List Char → Bool
  | [], _ => true
  | _ :: _, [] => false
  | a :: as, b :: bs => if a = b then lexLe as bs else decide (a < b)

/-- Python `<=` on strings (code-point lexicographic). -/
def strLe (s t : String) : Bool := lexLe s.data t.data

/-- Insert into a list sorted by the boolean comparison `le`, before the
first element not below `a` (the insertion step of a stable insertion
sort, which is also what `numpy`'s small-array sorts do). -/
def ordIns (le : α → α → Bool) (a : α) : List α → List α
  | [] => [a]
  | b :: l => if le a b then a :: b :: l else b :: ordIns le a l

/-- Stable insertion sort by a boolean comparison, used to model both
Python `sorted` and the stable behaviour of the pandas/numpy sorts on
the inputs considered here. -/
def insSort (le : α → α → Bool) : List α → List α
  | [] => []
  | a :: l => ordIns le a (insSort le l)

/-- States of the CPython `_csv` reader relevant under the default
dialect with `delimiter=';'` and no escape char.  `startField` also
covers `START_RECORD` for nonempty lines (whose first character falls
through to `START_FIELD`); the newline states are unreachable because
the reader is fed `text.splitlines()`. -/
inductive CsvState : Type
  | startField : CsvState
  | inField : CsvState
  | inQuoted : CsvState
  | quoteInQuoted : CsvState

/-- Run the csv state machine over the characters of one line,
starting in state `st` with current field `cur` and previously
completed fields `acc`.  Returns `Sum.inl row` when the end of line
terminates the record, `Sum.inr (acc, cur)` when the line ends inside
a quoted field (the record continues on the next line). -/
def csvLineStep : List Char → CsvState → List Char → List (List Char) →
    Sum (List (List Char)) (List (List Char) × List Char)
  | [], st, cur, acc =>
    match st with
    | CsvState.inQuoted => Sum.inr (acc, cur)
    | _ => Sum.inl (acc ++ [cur])
  | c :: rest, CsvState.startField, cur, acc =>
    if c = '"' then csvLineStep rest CsvState.inQuoted cur acc
    else if c = ';' then csvLineStep rest CsvState.startField [] (acc ++ [cur])
    else csvLineStep rest CsvState.inField (cur ++ [c]) acc
  | c :: rest, CsvState.inField, cur, acc =>
    if c = ';' then csvLineStep rest CsvState.startField [] (acc ++ [cur])
    else csvLineStep rest CsvState.inField (cur ++ [c]) acc
  | c :: rest, CsvState.inQuoted, cur, acc =>
    if c = '"' then csvLineStep rest CsvState.quoteInQuoted cur acc
    else csvLineStep rest CsvState.inQuoted (cur ++ [c]) acc
  | c :: rest, CsvState.quoteInQuoted, cur, acc =>
    if c = '"' then csvLineStep rest CsvState.inQuoted (cur ++ ['"']) acc
    else if c = ';' then csvLineStep rest CsvState.startField [] (acc ++ [cur])
    else csvLineStep rest CsvState.inField (cur ++ [c]) acc

/-- Iterate the csv reader over the lines.  `cont` carries the
completed fields and current field of a record whose quoted field is
still open from the previous line; at end of input such a record is
emitted as-is (non-strict dialect).  An empty line with no open record
yields the empty record `[]` (`START_RECORD` straight to end of
line). -/
def csvRowsAux : List (List Char) → Option (List (List Char) × List Char) →
    List (List (List Char))
  | [], none => []
  | [], some (acc, cur) => [acc ++ [cur]]
  | l :: ls, none =>
    if l.isEmpty then [] :: csvRowsAux ls none
    else
      match csvLineStep l CsvState.startField [] [] with
      | Sum.inl row => row :: csvRowsAux ls none
      | Sum.inr cont => csvRowsAux ls (some cont)
  | l :: ls, some (acc, cur) =>
    match csvLineStep l CsvState.inQuoted cur acc with
    | Sum.inl row => row :: csvRowsAux ls none
    | Sum.inr cont => csvRowsAux ls (some cont)

/-- `csv.reader(text.splitlines(), delimiter=';')`, as the list of
rows, each row a list of field strings. -/
def csvRows (text : String) : List (List String) :=
  (csvRowsAux (pySplitlines text.data) none).map (fun row => row.map (fun f => ⟨f⟩))

/-- Does the text contain a NUL character?  `csv.reader` raises
`Error: line contains NUL` on such input, and neither parser variant
catches it. -/
def hasNul (text : String) : Bool := text.data.contains (Char.ofNat 0)

/-- Does a data row qualify as an FM reference?  Mirrors the loop body
of `parse_dependency_csv`: at least 5 fields, `kind` = `"FM"` and
`location` containing `"CALL FUNCTION"` after strip + upper. -/
def rowQualifies (row : List String) : Bool :=
  5 ≤ row.length && stripUpper (row.getD 2 "") = "FM" &&
    strContains (stripUpper (row.getD 4 "")) "CALL FUNCTION"

/-- The (possibly empty) contribution of a data row: the stripped
`name` field when the row qualifies. -/
def extractRow (row : List String) : List String :=
  if rowQualifies row then [pyStrip (row.getD 3 "")] else []

/-- The contribution of the first row in the `bw_utils` parser: if it
does not look like a header (nonempty, and with fewer than 5 fields or
a `kind` column other than `"KIND"`), it is re-evaluated as data with
out-of-range columns read as `""`.  Mirrors lines 31-40 of
`src/bw_utils.py`. -/
def headerRowExtract (row : List String) : List String :=
  if row ≠ [] ∧ (row.length < 5 ∨ stripUpper (row.getD 2 "") ≠ "KIND") then
    let kind := if 2 < row.length then stripUpper (row.getD 2 "") else ""
    let name := if 3 < row.length then pyStrip (row.getD 3 "") else ""
    let wher := if 4 < row.length then stripUpper (row.getD 4 "") else ""
    if kind = "FM" ∧ strContains wher "CALL FUNCTION" then [name] else []
  else []

/-- `sorted(fms)` for a Python set accumulated as a list: sort the
distinct elements lexicographically. -/
def pySortedSet (l : List String) : List String := insSort strLe l.dedup

/-- `parse_dependency_csv` of `src/bw_utils.py`: split the text into
semicolon csv rows, treat the first row as a header unless it does not
look like one (then re-evaluate it as data), collect the stripped
names of qualifying FM rows into a set, and return them sorted.
`none` models the uncaught `csv.Error` on NUL input. -/
def parse_dependency_csv (text : String) : Option (List String) :=
  if hasNul text then none
  else
    match csvRows text with
    | [] => some []
    | first :: rest =>
      some (pySortedSet (headerRowExtract first ++ rest.flatMap extractRow))

/-- `parse_dependency_csv` of `src/utils.py`: identical except that the
first row is skipped unconditionally (`next(rows, None)`). -/
def parse_dependency_csv_of_utils (text : String) : Option (List String) :=
  if hasNul text then none
  else some (pySortedSet (((csvRows text).drop 1).flatMap extractRow))

/-- A discovered dependency record: `{"usecase": ..., "provider": ...,
"fms": ...}` as produced by the three discovery modes. -/
structure DependencyRecord : Type where
  usecase : String
  provider : String
  fms : List String
deriving DecidableEq

/-- `_looks_like_dependency_log` of `src/bw_utils.py`: the argument is
the already-lowercased filename. -/
def looks_like_dependency_log (filename_lower : String) : Bool :=
  strContains filename_lower "depend" && strContains filename_lower "log" &&
    (strEndsWith filename_lower ".txt" || strEndsWith filename_lower ".log" ||
      !strContains filename_lower ".")

/-- `_infer_usecase_provider_from_parts` of `src/bw_utils.py`: find
the first segment equal to `"transformations"` case-insensitively;
`(usecase, provider)` are the two segments before it.  `(None, None)`
is modelled as `none`. -/
def infer_usecase_provider_from_parts (parts : List String) : Option (String × String) :=
  let lowerParts := parts.map pyLower
  if lowerParts.contains "transformations" then
    let idx := lowerParts.findIdx (fun p => p == "transformations")
    if idx < 2 then none
    else some (parts.getD (idx - 2) "", parts.getD (idx - 1) "")
  else none

/-- `[p for p in member.split("/") if p]`: the nonempty POSIX path
segments of a ZIP member name. -/
def zipParts (member : String) : List String :=
  ((splitCh '/' member.data).filter (fun p => !p.isEmpty)).map (fun p => ⟨p⟩)

/-- `scan_zip_structure` of `src/bw_utils.py`.  The archive is
modelled as its flat listing: one `(member, text)` pair per
`namelist()` entry, `text` being what `zip_file.read(member).decode("utf-8",
errors="ignore")` yields for it.  Directory entries end in `"/"`.
`none` models an uncaught `csv.Error` escaping the loop. -/
def scan_zip_structure : List (String × String) → Option (List DependencyRecord)
  | [] => some []
  | (member, text) :: rest =>
    if strEndsWith member "/" then scan_zip_structure rest
    else if strContains (pyLower member) "depend" && strContains (pyLower member) "log" then
      match infer_usecase_provider_from_parts (zipParts member) with
      | none => scan_zip_structure rest
      | some (usecase, provider) =>
        if usecase = "" ∨ provider = "" then scan_zip_structure rest
        else
          match parse_dependency_csv text with
          | none => none
          | some fms =>
            (scan_zip_structure rest).map
              (fun rs => { usecase := usecase, provider := provider, fms := fms } :: rs)
    else scan_zip_structure rest

/-- One directory visited by `os.walk(root_path)`, as consumed by
`scan_local_directory`: its path relative to the walk root
(`os.path.relpath(dirpath, start=root_path)`, `"."` for the root
itself), the filenames it contains, and the result of opening and
reading each file (`none` models an `open`/`read` exception, which
skips just that file). -/
structure DirEntry : Type where
  relPath : String
  filenames : List String
  content : String → Option String

/-- `[] if rel_path == "." else rel_path.replace("\\", "/").split("/")`. -/
def dirParts (relPath : String) : List String :=
  if relPath = "." then []
  else (splitCh '/' (relPath.data.map (fun c => if c = '\\' then '/' else c))).map
    (fun p => ⟨p⟩)

/-- The segment list actually passed to the identity resolver by
`scan_local_directory`: the relative parts, with a synthetic
`"Transformations"` appended when the last segment is not
`"transformations"` (case-insensitively) and no segment is. -/
def effectiveParts (relPath : String) : List String :=
  let parts := dirParts relPath
  let lastLower := pyLower (parts.getLastD "")
  if lastLower ≠ "transformations" then
    if (parts.map pyLower).contains "transformations" then parts
    else parts ++ ["Transformations"]
  else parts

/-- The candidate log files of one visited directory. -/
def candidateLogFiles (d : DirEntry) : List String :=
  d.filenames.filter (fun fn => looks_like_dependency_log (pyLower fn))

/-- The per-file loop of `scan_local_directory` over one directory's
candidates: unreadable files are skipped, a parse error (`none`)
aborts the whole scan. -/
def dirRecords (content : String → Option String) (usecase provider : String) :
    List String → Option (List DependencyRecord)
  | [] => some []
  | fn :: fns =>
    match content fn with
    | none => dirRecords content usecase provider fns
    | some text =>
      match parse_dependency_csv text with
      | none => none
      | some fms =>
        (dirRecords content usecase provider fns).map
          (fun rs => { usecase := usecase, provider := provider, fms := fms } :: rs)

/-- `scan_local_directory` of `src/bw_utils.py`, over the sequence of
directories that `os.walk` yields. -/
def scan_local_directory : List DirEntry → Option (List DependencyRecord)
  | [] => some []
  | d :: ds =>
    if (candidateLogFiles d).isEmpty then scan_local_directory ds
    else
      match infer_usecase_provider_from_parts (effectiveParts d.relPath) with
      | none => scan_local_directory ds
      | some (usecase, provider) =>
        if usecase = "" ∨ provider = "" then scan_local_directory ds
        else
          match dirRecords d.content usecase provider (candidateLogFiles d) with
          | none => none
          | some rs => (scan_local_directory ds).map (fun rest => rs ++ rest)

/-- `", ".join(l)`. -/
def joinComma (l : List String) : String := String.intercalate ", " l

/-- One row of the `UseCase -> Provider -> FM list` table. -/
structure UCRow : Type where
  usecase : String
  provider : String
  fm_list : String
deriving DecidableEq

/-- One row of the `FM -> UseCase list` table. -/
structure FmUsecaseRow : Type where
  fm : String
  usecases : String
deriving DecidableEq

/-- The single summary row. -/
structure SummaryRow : Type where
  totalUseCases : Nat
  totalProviders : Nat
  totalLogsProcessed : Nat
  totalUniqueFms : Nat
  top5MostUsedFms : String
deriving DecidableEq

/-- The four tables returned by `build_analysis_outputs`. -/
structure AnalysisTables : Type where
  usecaseProvider : List UCRow
  fmUsecase : List FmUsecaseRow
  uniqueFms : List String
  summary : SummaryRow
deriving DecidableEq

/-- `fm_to_usecases.setdefault(fm, set()).add(usecase)` on an
insertion-ordered association list whose values are the use-case sets
(as duplicate-free lists). -/
def addUC : List (String × List String) → String → String → List (String × List String)
  | [], fm, u => [(fm, [u])]
  | (k, ucs) :: rest, fm, u =>
    if k = fm then (k, if u ∈ ucs then ucs else ucs ++ [u]) :: rest
    else (k, ucs) :: addUC rest fm u

/-- Lookup in the association list (dict access). -/
def lookupUC : List (String × List String) → String → Option (List String)
  | [], _ => none
  | (k, ucs) :: rest, fm => if k = fm then some ucs else lookupUC rest fm

/-- The inner loop `for fm in fms: fm_to_usecases.setdefault(fm,
set()).add(usecase)`. -/
def addRecFms (m : List (String × List String)) (u : String) :
    List String → List (String × List String)
  | [] => m
  | fm :: fms => addRecFms (addUC m fm u) u fms

/-- The outer loop of `build_analysis_outputs` accumulating
`fm_to_usecases`. -/
def fmMapFrom (m : List (String × List String)) :
    List DependencyRecord → List (String × List String)
  | [] => m
  | rec :: rest => fmMapFrom (addRecFms m rec.usecase rec.fms) rest

/-- The finished `fm_to_usecases` dict. -/
def fmMapOf (records : List DependencyRecord) : List (String × List String) :=
  fmMapFrom [] records

/-- Row comparison for `sort_values(["usecase", "provider"])`. -/
def ucRowLe (a b : UCRow) : Bool :=
  if a.usecase = b.usecase then strLe a.provider b.provider else strLe a.usecase b.usecase

/-- Row comparison for `sort_values("fm")`. -/
def fmRowLe (a b : FmUsecaseRow) : Bool := strLe a.fm b.fm

/-- `build_analysis_outputs` of `src/bw_utils.py`.  `none` models the
`KeyError` that `pandas` raises when sorting an empty, column-less
`DataFrame`: on an empty record list (the forward table) or when no
record contributed any FM (the reverse table).  The top-5 entry is the
head of the frequency Series after a stable ascending sort by value
and reversal (descending `sort_values`). -/
def build_analysis_outputs (records : List DependencyRecord) : Option AnalysisTables :=
  let rows := records.map (fun rec =>
    { usecase := rec.usecase, provider := rec.provider,
      fm_list := joinComma rec.fms : UCRow })
  let fmMap := fmMapOf records
  if rows.isEmpty || fmMap.isEmpty then none
  else
    let uniqueSorted := insSort strLe (fmMap.map (fun e => e.1))
    let freq := fmMap.map (fun e => (e.1, e.2.length))
    let freqDescending := (insSort (fun a b => decide (a.2 ≤ b.2)) freq).reverse
    some
      { usecaseProvider := insSort ucRowLe rows
        fmUsecase := insSort fmRowLe (fmMap.map (fun e =>
          { fm := e.1, usecases := joinComma (insSort strLe e.2) }))
        uniqueFms := uniqueSorted
        summary :=
          { totalUseCases := (rows.map (fun r => r.usecase)).dedup.length
            totalProviders := (rows.map (fun r => r.provider)).dedup.length
            totalLogsProcessed := records.length
            totalUniqueFms := uniqueSorted.length
            top5MostUsedFms := joinComma ((freqDescending.take 5).map (fun e => e.1)) } }

/-- The fields of a line split strictly on `;`, as the claims about
the parser describe rows. -/
def fieldsOfLine (line : List Char) : List String :=
  (splitCh ';' line).map (fun f => ⟨f⟩)

/-- A line qualifies, under strict `;`-splitting, as an FM reference
naming `x`. -/
def lineYieldsName (line : List Char) (x : String) : Prop :=
  rowQualifies (fieldsOfLine line) = true ∧ pyStrip ((fieldsOfLine line).getD 3 "") = x

instance (line : List Char) (x : String) : Decidable (lineYieldsName line x) := by
  unfold lineYieldsName
  exact instDecidableAnd

/-- The number of distinct use-cases referencing `fm` across the
records, as the spec counts them. -/
def fmReferenceCount (records : List DependencyRecord) (fm : String) : Nat :=
  (((records.filter (fun rec => decide (fm ∈ rec.fms))).map
    (fun rec => rec.usecase)).dedup).length

/-- All distinct FM names across the records. -/
def allFms (records : List DependencyRecord) : List String :=
  (records.flatMap (fun rec => rec.fms)).dedup

/-- A ZIP member passes the archive strategy's tests: not a directory
entry, lowercased name containing both `"depend"` and `"log"`, and
resolvable identity. -/
def zipAccepted (member : String) : Prop :=
  strEndsWith member "/" = false ∧
  strContains (pyLower member) "depend" = true ∧
  strContains (pyLower member) "log" = true ∧
  (infer_usecase_provider_from_parts (zipParts member)).isSome = true

instance (m : String) : Decidable (zipAccepted m) := by
  unfold zipAccepted
  infer_instance

/-- The archive strategy turns listing entry `e` into record `r`. -/
def zipMemberYields (e : String × String) (r : DependencyRecord) : Prop :=
  strEndsWith e.1 "/" = false ∧
  strContains (pyLower e.1) "depend" = true ∧
  strContains (pyLower e.1) "log" = true ∧
  ∃ u p, infer_usecase_provider_from_parts (zipParts e.1) = some (u, p) ∧
    ∃ fms, parse_dependency_csv e.2 = some fms ∧
      r = { usecase := u, provider := p, fms := fms }

/-- Prepend pending characters to the first of a list of fields
(helper for relating the csv machine to plain splitting). -/
def consHead (cur : List Char) : List (List Char) → List (List Char)
  | [] => [cur]
  | f :: fs => (cur ++ f) :: fs

theorem perm_ordIns (le : α → α → Bool) (a : α) :
    ∀ l : List α, (ordIns le a l).Perm (a :: l) := by
  intro l
  induction l with
  | nil => simp [ordIns]
  | cons b t ih =>
    by_cases h : le a b = true
    · simp [ordIns, h]
    · simp only [ordIns, h, if_false]
      exact (ih.cons b).trans (List.Perm.swap a b t)

theorem perm_insSort (le : α → α → Bool) :
    ∀ l : List α, (insSort le l).Perm l := by
  intro l
  induction l with
  | nil => simp [insSort]
  | cons a t ih =>
    exact (perm_ordIns le a (insSort le t)).trans (ih.cons a)

theorem mem_ordIns (le : α → α → Bool) (a x : α) (l : List α) :
    x ∈ ordIns le a l ↔ x = a ∨ x ∈ l := by
  rw [(perm_ordIns le a l).mem_iff]
  simp

theorem mem_insSort (le : α → α → Bool) (x : α) (l : List α) :
    x ∈ insSort le l ↔ x ∈ l :=
  (perm_insSort le l).mem_iff

theorem sorted_ordIns (le : α → α → Bool)
    (htot : ∀ a b, le a b = true ∨ le b a = true)
    (htrans : ∀ a b c, le a b = true → le b c = true → le a c = true)
    (a : α) : ∀ l : List α, l.Pairwise (fun x y => le x y = true) →
      (ordIns le a l).Pairwise (fun x y => le x y = true) := by
  intro l
  induction l with
  | nil => simp [ordIns]
  | cons b t ih =>
    intro h
    rcases List.pairwise_cons.mp h with ⟨hb, ht⟩
    by_cases hab : le a b = true
    · simp only [ordIns, hab, if_true]
      refine List.pairwise_cons.mpr ⟨?_, h⟩
      intro x hx
      rcases List.mem_cons.mp hx with rfl | hxt
      · exact hab
      · exact htrans a b x hab (hb x hxt)
    · have hba : le b a = true := (htot a b).resolve_left hab
      simp only [ordIns, hab, if_false]
      refine List.pairwise_cons.mpr ⟨?_, ih ht⟩
      intro x hx
      rcases (mem_ordIns le a x t).mp hx with rfl | hxt
      · exact hba
      · exact hb x hxt

theorem sorted_insSort (le : α → α → Bool)
    (htot : ∀ a b, le a b = true ∨ le b a = true)
    (htrans : ∀ a b c, le a b = true → le b c = true → le a c = true) :
    ∀ l : List α, (insSort le l).Pairwise (fun x y => le x y = true) := by
  intro l
  induction l with
  | nil => simp [insSort]
  | cons a t ih => exact sorted_ordIns le htot htrans a (insSort le t) ih

theorem lexLe_total : ∀ a b : List Char, lexLe a b = true ∨ lexLe b a = true := by
  intro a
  induction a with
  | nil => intro b; left; rfl
  | cons x xs ih =>
    intro b
    cases b with
    | nil => right; rfl
    | cons y ys =>
      by_cases hxy : x = y
      · subst hxy
        simpa [lexLe] using ih ys
      · rcases Ne.lt_or_lt hxy with h | h
        · left; simp [lexLe, hxy, h]
        · right; simp [lexLe, Ne.symm hxy, h]

theorem lexLe_trans : ∀ a b c : List Char,
    lexLe a b = true → lexLe b c = true → lexLe a c = true := by
  intro a
  induction a with
  | nil => intro b c _ _; rfl
  | cons x xs ih =>
    intro b c hab hbc
    cases b with
    | nil => simp [lexLe] at hab
    | cons y ys =>
      cases c with
      | nil => simp [lexLe] at hbc
      | cons z zs =>
        by_cases hxy : x = y
        · subst hxy
          by_cases hyz : x = z
          · subst hyz
            simp only [lexLe, if_pos rfl] at hab hbc ⊢
            exact ih ys zs hab hbc
          · simp only [lexLe, if_pos rfl, if_neg hyz] at hbc ⊢
            exact hbc
        · by_cases hyz : y = z
          · subst hyz
            simp only [lexLe, if_neg hxy] at hab ⊢
            exact hab
          · simp only [lexLe, if_neg hxy] at hab
            simp only [lexLe, if_neg hyz] at hbc
            have hxz : x < z := lt_trans (of_decide_eq_true hab) (of_decide_eq_true hbc)
            simp [lexLe, ne_of_lt hxz, hxz]

theorem strLe_total : ∀ a b : String, strLe a b = true ∨ strLe b a = true := by
  intro a b
  exact lexLe_total a.data b.data

theorem strLe_trans : ∀ a b c : String,
    strLe a b = true → strLe b c = true → strLe a c = true := by
  intro a b c
  exact lexLe_trans a.data b.data c.data

theorem splitCh_ne_nil (sep : Char) : ∀ cs : List Char, splitCh sep cs ≠ [] := by
  intro cs
  cases cs with
  | nil => simp [splitCh]
  | cons c rest =>
    simp only [splitCh]
    split
    · simp
    · split <;> simp

theorem consHead_nil_of_ne (fs : List (List Char)) (h : fs ≠ []) : consHead [] fs = fs := by
  cases fs with
  | nil => exact absurd rfl h
  | cons f rest => simp [consHead]

theorem csvLineStep_noQuote :
    ∀ cs : List Char, '"' ∉ cs →
      ∀ st : CsvState, st = CsvState.startField ∨ st = CsvState.inField →
        ∀ (cur : List Char) (acc : List (List Char)),
          csvLineStep cs st cur acc = Sum.inl (acc ++ consHead cur (splitCh ';' cs)) := by
  intro cs
  induction cs with
  | nil =>
    intro _ st hst cur acc
    rcases hst with rfl | rfl <;> simp [csvLineStep, splitCh, consHead]
  | cons c rest ih =>
    intro hq st hst cur acc
    have hcq : c ≠ '"' := fun h => hq (h ▸ List.mem_cons_self c rest)
    have hrq : '"' ∉ rest := fun h => hq (List.mem_cons_of_mem c h)
    by_cases hsem : c = ';'
    · subst hsem
      have hstep : csvLineStep (';' :: rest) st cur acc =
          csvLineStep rest CsvState.startField [] (acc ++ [cur]) := by
        rcases hst with rfl | rfl <;> simp [csvLineStep, hcq]
      rw [hstep, ih hrq CsvState.startField (Or.inl rfl) [] (acc ++ [cur])]
      rw [consHead_nil_of_ne (splitCh ';' rest) (splitCh_ne_nil ';' rest)]
      simp [splitCh, consHead]
    · have hstep : csvLineStep (c :: rest) st cur acc =
          csvLineStep rest CsvState.inField (cur ++ [c]) acc := by
        rcases hst with rfl | rfl <;> simp [csvLineStep, hcq, hsem]
      rw [hstep, ih hrq CsvState.inField (Or.inr rfl) (cur ++ [c]) acc]
      rcases h : splitCh ';' rest with _ | ⟨f, fs⟩
      · exact absurd h (splitCh_ne_nil ';' rest)
      · simp [splitCh, hsem, h, consHead]

theorem csvRowsAux_noQuote :
    ∀ lines : List (List Char), (∀ l ∈ lines, '"' ∉ l) →
      csvRowsAux lines none =
        lines.map (fun l => if l.isEmpty then [] else splitCh ';' l) := by
  intro lines
  induction lines with
  | nil => intro _; rfl
  | cons l ls ih =>
    intro hq
    have hl : '"' ∉ l := hq l (List.mem_cons_self l ls)
    have hls : ∀ m ∈ ls, '"' ∉ m := fun m hm => hq m (List.mem_cons_of_mem l hm)
    by_cases he : l.isEmpty
    · simp only [csvRowsAux, he, if_true, List.map_cons, ih hls]
    · simp only [csvRowsAux, he, if_false, List.map_cons]
      rw [csvLineStep_noQuote l hl CsvState.startField (Or.inl rfl) [] []]
      rw [consHead_nil_of_ne (splitCh ';' l) (splitCh_ne_nil ';' l)]
      simp [ih hls]

theorem mem_pySortedSet (x : String) (l : List String) :
    x ∈ pySortedSet l ↔ x ∈ l := by
  rw [pySortedSet, mem_insSort, List.mem_dedup]

theorem nodup_pySortedSet (l : List String) : (pySortedSet l).Nodup :=
  ((perm_insSort strLe l.dedup).nodup_iff).mpr l.nodup_dedup

theorem sorted_pySortedSet (l : List String) :
    (pySortedSet l).Pairwise (fun a b => strLe a b = true) :=
  sorted_insSort strLe strLe_total strLe_trans l.dedup

theorem count_pySortedSet (x : String) (l : List String) (h : x ∈ pySortedSet l) :
    (pySortedSet l).count x = 1 :=
  List.count_eq_one_of_mem (nodup_pySortedSet l) h

theorem strContains_empty_callfn : strContains "" "CALL FUNCTION" = false := by decide

theorem headerRowExtract_eq_extractRow (row : List String) :
    headerRowExtract row = extractRow row := by
  cases row with
  | nil => decide
  | cons f r =>
    simp only [headerRowExtract, extractRow, rowQualifies]
    by_cases h5 : 5 ≤ (f :: r).length
    · have h2 : 2 < (f :: r).length := by omega
      have h3 : 3 < (f :: r).length := by omega
      have h4 : 4 < (f :: r).length := by omega
      rw [if_pos h2, if_pos h3, if_pos h4]
      by_cases hk : stripUpper ((f :: r).getD 2 "") = "KIND"
      · rw [if_neg (fun hcond => hcond.2.elim (fun hlt => absurd hlt (by omega))
          (fun hne => hne hk))]
        rw [if_neg (fun hb => by
          rcases Bool.and_eq_true_iff.mp hb with ⟨hab, _⟩
          rcases Bool.and_eq_true_iff.mp hab with ⟨_, hfmb⟩
          have hfmp := of_decide_eq_true hfmb
          rw [hk] at hfmp
          exact absurd hfmp (by decide))]
      · rw [if_pos ⟨List.cons_ne_nil f r, Or.inr hk⟩]
        simp only [Bool.and_eq_true, decide_eq_true_eq, h5, true_and]
    · have hlt : (f :: r).length < 5 := Nat.not_le.mp h5
      rw [if_pos ⟨List.cons_ne_nil f r, Or.inl hlt⟩,
        if_neg (show ¬ 4 < (f :: r).length by omega)]
      rw [if_neg (fun hcond => absurd hcond.2 (by decide))]
      rw [if_neg (fun hb => by
        rcases Bool.and_eq_true_iff.mp hb with ⟨hab, _⟩
        rcases Bool.and_eq_true_iff.mp hab with ⟨h5b, _⟩
        exact absurd (of_decide_eq_true h5b) h5)]

theorem mem_extractRow (x : String) (row : List String) :
    x ∈ extractRow row ↔
      rowQualifies row = true ∧ pyStrip (row.getD 3 "") = x := by
  by_cases h : rowQualifies row = true
  · simp [extractRow, h, eq_comm]
  · simp [extractRow, h]

theorem parse_shape (t : String) (out : List String)
    (hp : parse_dependency_csv t = some out) :
    out = [] ∨ ∃ l, out = pySortedSet l := by
  unfold parse_dependency_csv at hp
  by_cases hn : hasNul t = true
  · rw [if_pos hn] at hp; cases hp
  · rw [if_neg hn] at hp
    cases hr : csvRows t with
    | nil => rw [hr] at hp; exact Or.inl (Option.some.inj hp).symm
    | cons first rest =>
      rw [hr] at hp
      exact Or.inr ⟨_, (Option.some.inj hp).symm⟩

theorem mem_parse (t : String) (out : List String) (x : String)
    (hp : parse_dependency_csv t = some out) :
    x ∈ out ↔ ∃ row ∈ csvRows t,
      rowQualifies row = true ∧ pyStrip (row.getD 3 "") = x := by
  unfold parse_dependency_csv at hp
  by_cases hn : hasNul t = true
  · rw [if_pos hn] at hp; cases hp
  · rw [if_neg hn] at hp
    cases hr : csvRows t with
    | nil =>
      rw [hr] at hp
      cases Option.some.inj hp
      simp
    | cons first rest =>
      rw [hr] at hp
      cases Option.some.inj hp
      rw [mem_pySortedSet, List.mem_append, headerRowExtract_eq_extractRow,
        mem_extractRow]
      constructor
      · rintro (h | h)
        · exact ⟨first, List.mem_cons_self first rest, h⟩
        · rcases List.mem_flatMap.mp h with ⟨row, hrow, hx⟩
          exact ⟨row, List.mem_cons_of_mem first hrow, (mem_extractRow x row).mp hx⟩
      · rintro ⟨row, hrow, hQ⟩
        rcases List.mem_cons.mp hrow with rfl | hrow
        · exact Or.inl hQ
        · exact Or.inr (List.mem_flatMap.mpr ⟨row, hrow, (mem_extractRow x row).mpr hQ⟩)

theorem mem_of_mem_pySplitlinesAux :
    ∀ (cs acc : List Char) (l : List Char), l ∈ pySplitlinesAux cs acc →
      ∀ c ∈ l, c ∈ cs ∨ c ∈ acc := by
  intro cs acc l hl c hc
  induction cs, acc using pySplitlinesAux.induct generalizing l with
  | case1 =>
    simp [pySplitlinesAux] at hl
  | case2 acc hacc =>
    rw [pySplitlinesAux.eq_2 _ hacc] at hl
    rcases List.mem_singleton.mp hl with rfl
    exact Or.inr (List.mem_reverse.mp hc)
  | case3 rest acc ih =>
    rw [pySplitlinesAux.eq_3] at hl
    rcases List.mem_cons.mp hl with rfl | hl2
    · exact Or.inr (List.mem_reverse.mp hc)
    · rcases ih l hl2 hc with h | h
      · exact Or.inl (List.mem_cons_of_mem _ (List.mem_cons_of_mem _ h))
      · simp at h
  | case4 ch rest acc hne hb ih =>
    rw [pySplitlinesAux.eq_4 _ _ _ hne, if_pos hb] at hl
    rcases List.mem_cons.mp hl with rfl | hl2
    · exact Or.inr (List.mem_reverse.mp hc)
    · rcases ih l hl2 hc with h | h
      · exact Or.inl (List.mem_cons_of_mem _ h)
      · simp at h
  | case5 ch rest acc hne hb ih =>
    rw [pySplitlinesAux.eq_4 _ _ _ hne, if_neg hb] at hl
    rcases ih l hl hc with h | h
    · exact Or.inl (List.mem_cons_of_mem _ h)
    · rcases List.mem_cons.mp h with rfl | h2
      · exact Or.inl (List.mem_cons_self _ _)
      · exact Or.inr h2

theorem mem_of_mem_pySplitlines (cs : List Char) (l : List Char)
    (hl : l ∈ pySplitlines cs) : ∀ c ∈ l, c ∈ cs := by
  intro c hc
  rcases mem_of_mem_pySplitlinesAux cs [] l hl c hc with h | h
  · exact h
  · simp at h

theorem csvRows_noQuote (t : String) (hq : ∀ c ∈ t.data, c ≠ '"') :
    csvRows t = (pySplitlines t.data).map
      (fun l => (if l.isEmpty then [] else splitCh ';' l).map
        (fun f => (⟨f⟩ : String))) := by
  unfold csvRows
  rw [csvRowsAux_noQuote (pySplitlines t.data)
    (fun l hl hquote => (hq '"' (mem_of_mem_pySplitlines t.data l hl '"' hquote)) rfl)]
  rw [List.map_map]
  rfl

/-- C3 (amended): for a text containing no double-quote character (so
that `csv.reader`'s quoting cannot merge `;`-separated fields) on
which the parser returns normally, the output contains a name `x` iff
some line, split strictly on `;`, has at least 5 fields, `kind`
(field 3, trimmed, case-insensitive) `"FM"`, `location` (field 5,
trimmed, case-insensitive) containing `"CALL FUNCTION"`, and a trimmed
`name` (field 4) equal to `x`; each such name appears exactly once and
the output is sorted. -/
theorem parse_output_iff_strict_splitting (t : String) (out : List String)
    (hq : ∀ c ∈ t.data, c ≠ '"')
    (hp : parse_dependency_csv t = some out) :
    (∀ x, x ∈ out ↔ ∃ line ∈ pySplitlines t.data, lineYieldsName line x) ∧
    (∀ x, x ∈ out → out.count x = 1) ∧
    out.Pairwise (fun a b => strLe a b = true) := by
  refine ⟨?_, ?_, ?_⟩
  · intro x
    rw [mem_parse t out x hp, csvRows_noQuote t hq]
    constructor
    · rintro ⟨row, hrow, hQ, hname⟩
      rcases List.mem_map.mp hrow with ⟨l, hlmem, rfl⟩
      refine ⟨l, hlmem, ?_⟩
      by_cases he : l.isEmpty
      · rw [if_pos he] at hQ
        simp [rowQualifies] at hQ
      · rw [if_neg he] at hQ hname
        exact ⟨hQ, hname⟩
    · rintro ⟨l, hlmem, hQ, hname⟩
      refine ⟨(if l.isEmpty then [] else splitCh ';' l).map (fun f => (⟨f⟩ : String)),
        List.mem_map_of_mem _ hlmem, ?_⟩
      by_cases he : l.isEmpty
      · rw [List.isEmpty_iff] at he
        subst he
        exact absurd hQ (by decide)
      · rw [if_neg he]
        exact ⟨hQ, hname⟩
  · intro x hx
    rcases parse_shape t out hp with rfl | ⟨l, rfl⟩
    · simp at hx
    · exact count_pySortedSet x l hx
  · rcases parse_shape t out hp with rfl | ⟨l, rfl⟩
    · exact List.Pairwise.nil
    · exact sorted_pySortedSet l

/-- C3 counterexample: on a text with a quoted field, `csv.reader`
joins `;`-separated pieces into one `location` field, so the parser
extracts `NAME` although no row obtained by splitting strictly on `;`
qualifies. -/
theorem parse_quote_counterexample :
    parse_dependency_csv "1;C;FM;NAME;\"x;CALL FUNCTION\"" = some ["NAME"] ∧
    ¬ ∃ line ∈ pySplitlines ("1;C;FM;NAME;\"x;CALL FUNCTION\"").data,
      lineYieldsName line "NAME" := by
  constructor
  · decide
  · decide

set_option maxRecDepth 100000 in
/-- C3 witness: the amended theorem applied to a concrete quote-free
log text. -/
theorem parse_output_iff_strict_splitting_witness :
    parse_dependency_csv
      "ranid;Container;Kind;Name;Where;Line;Note\n1;C1;FM;Z_B;x CALL FUNCTION y;9;\n2;C1;fm; Z_A ;abc call function;8;\n3;C1;FM;Z_B;MORE CALL FUNCTION;9;" =
      some ["Z_A", "Z_B"] ∧
    ((∀ x, x ∈ ["Z_A", "Z_B"] ↔ ∃ line ∈ pySplitlines
        ("ranid;Container;Kind;Name;Where;Line;Note\n1;C1;FM;Z_B;x CALL FUNCTION y;9;\n2;C1;fm; Z_A ;abc call function;8;\n3;C1;FM;Z_B;MORE CALL FUNCTION;9;").data,
        lineYieldsName line x) ∧
      (∀ x, x ∈ ["Z_A", "Z_B"] → (["Z_A", "Z_B"] : List String).count x = 1) ∧
      (["Z_A", "Z_B"] : List String).Pairwise (fun a b => strLe a b = true)) :=
  ⟨by decide, parse_output_iff_strict_splitting _ ["Z_A", "Z_B"] (by decide) (by decide)⟩

/-- C4: when the first csv row does not look like a header (its
`kind` column, when present, is not `"KIND"` case-insensitively), the
`bw_utils` parser evaluates it as a normal data row: the output is the
sorted set of names extracted from all rows, the first included. -/
theorem parse_first_row_evaluated_as_data (t : String) (first : List String)
    (rest : List (List String)) (hrows : csvRows t = first :: rest)
    (hn : hasNul t = false)
    (hh : 2 < first.length → stripUpper (first.getD 2 "") ≠ "KIND") :
    parse_dependency_csv t = some (pySortedSet ((first :: rest).flatMap extractRow)) := by
  unfold parse_dependency_csv
  simp only [hn, Bool.false_eq_true, if_false, hrows]
  simp only [headerRowExtract_eq_extractRow, List.flatMap_cons]

/-- C4 witness: a single qualifying FM data row with no header line
yields that row's name. -/
theorem parse_first_row_evaluated_as_data_witness :
    parse_dependency_csv "1;C1;FM;Z_TEST;abc CALL FUNCTION def;10;" = some ["Z_TEST"] := by
  have h := parse_first_row_evaluated_as_data
    "1;C1;FM;Z_TEST;abc CALL FUNCTION def;10;"
    ["1", "C1", "FM", "Z_TEST", "abc CALL FUNCTION def", "10", ""] []
    (by decide) (by decide) (by decide)
  exact h.trans (by decide)

/-- C10: the `utils` parser (which skips the first row
unconditionally) and the `bw_utils` parser (which re-evaluates a
non-header first row) agree on every text whose first row does not
itself qualify as an FM reference, and differ on a text whose first
row does qualify. -/
theorem parser_variants_agreement :
    (∀ t, rowQualifies ((csvRows t).headD []) = false →
      parse_dependency_csv_of_utils t = parse_dependency_csv t) ∧
    parse_dependency_csv_of_utils "1;C;FM;Z_ONLY;CALL FUNCTION" ≠
      parse_dependency_csv "1;C;FM;Z_ONLY;CALL FUNCTION" := by
  constructor
  · intro t hq
    unfold parse_dependency_csv parse_dependency_csv_of_utils
    by_cases hn : hasNul t = true
    · simp [hn]
    · simp only [Bool.not_eq_true] at hn
      simp only [hn, Bool.false_eq_true, if_false]
      cases hr : csvRows t with
      | nil => simp [pySortedSet, insSort]
      | cons first rest =>
        rw [hr] at hq
        simp only [List.headD_cons] at hq
        simp only [headerRowExtract_eq_extractRow, extractRow, hq, Bool.false_eq_true,
          if_false, List.drop_succ_cons, List.drop_zero, List.nil_append]
  · decide

/-- C10 witness: both parsers agree on a text whose first row is a
real header. -/
theorem parser_variants_agreement_witness :
    parse_dependency_csv_of_utils
      "ranid;Container;Kind;Name;Where;Line;Note\n1;C1;FM;Z_X;do CALL FUNCTION now;3;" =
    parse_dependency_csv
      "ranid;Container;Kind;Name;Where;Line;Note\n1;C1;FM;Z_X;do CALL FUNCTION now;3;" :=
  parser_variants_agreement.1 _ (by decide)

theorem getD_mem_of_lt (l : List α) (i : Nat) (d : α) (h : i < l.length) :
    l.getD i d ∈ l := by
  induction l generalizing i with
  | nil => simp at h
  | cons a t ih =>
    cases i with
    | zero => simp
    | succ n =>
      simp only [List.getD_cons_succ]
      exact List.mem_cons_of_mem a (ih n (by simpa using h))

theorem getD_map_of_lt (f : α → β) (l : List α) (i : Nat) (d : α) (e : β)
    (h : i < l.length) : (l.map f).getD i e = f (l.getD i d) := by
  induction l generalizing i with
  | nil => simp at h
  | cons a t ih =>
    cases i with
    | zero => simp
    | succ n => simpa using ih n (by simpa using h)

theorem findIdx_eq_of_first (p : α → Bool) (d : α) :
    ∀ (l : List α) (i : Nat), i < l.length → p (l.getD i d) = true →
      (∀ j, j < i → p (l.getD j d) = false) → l.findIdx p = i := by
  intro l
  induction l with
  | nil => intro i hi; simp at hi
  | cons a t ih =>
    intro i hi hp hprev
    cases i with
    | zero =>
      simp only [List.getD_cons_zero] at hp
      simp [List.findIdx_cons, hp]
    | succ n =>
      have ha : p a = false := by simpa using hprev 0 (Nat.succ_pos n)
      simp only [List.findIdx_cons, ha, cond_false]
      have := ih n (by simpa using hi) (by simpa using hp)
        (fun j hj => by simpa using hprev (j + 1) (Nat.succ_lt_succ hj))
      omega

theorem contains_eq_false_of_forall_ne (l : List String) (a : String)
    (h : ∀ x ∈ l, x ≠ a) : l.contains a = false := by
  induction l with
  | nil => rfl
  | cons x t ih =>
    have hx : ¬ (a == x) = true := by
      intro hbeq
      exact h x (List.mem_cons_self x t) (beq_iff_eq.mp hbeq).symm
    simp only [List.contains_cons, Bool.or_eq_false_iff]
    exact ⟨by simpa using hx, ih (fun y hy => h y (List.mem_cons_of_mem x hy))⟩

theorem contains_eq_true_of_mem (l : List String) (a : String) (h : a ∈ l) :
    l.contains a = true := by
  induction l with
  | nil => simp at h
  | cons x t ih =>
    rcases List.mem_cons.mp h with rfl | h2
    · simp [List.contains_cons]
    · simp only [List.contains_cons, Bool.or_eq_true, ih h2, or_true]

/-- C5: the identity resolver returns `none` when no segment is
`"transformations"` case-insensitively, or when the first such segment
has fewer than two predecessors; otherwise it returns the two segments
before the first anchor, casing preserved.  The two concrete layouts
from the spec are also checked. -/
theorem infer_usecase_provider_spec :
    (∀ parts : List String, (∀ s ∈ parts, pyLower s ≠ "transformations") →
      infer_usecase_provider_from_parts parts = none) ∧
    (∀ (parts : List String) (i : Nat), i < parts.length →
      pyLower (parts.getD i "") = "transformations" →
      (∀ j, j < i → pyLower (parts.getD j "") ≠ "transformations") →
      (i < 2 → infer_usecase_provider_from_parts parts = none) ∧
      (2 ≤ i → infer_usecase_provider_from_parts parts =
        some (parts.getD (i - 2) "", parts.getD (i - 1) ""))) ∧
    infer_usecase_provider_from_parts ["A", "B", "Transformations", "file"] =
      some ("A", "B") ∧
    infer_usecase_provider_from_parts ["Transformations", "file"] = none := by
  refine ⟨?_, ?_, by decide, by decide⟩
  · intro parts h
    simp only [infer_usecase_provider_from_parts]
    rw [contains_eq_false_of_forall_ne (parts.map pyLower) "transformations"
      (fun x hx hxa => by
        rcases List.mem_map.mp hx with ⟨s, hs, rfl⟩
        exact h s hs hxa)]
    simp
  · intro parts i hi hp hprev
    have hmem : "transformations" ∈ parts.map pyLower := by
      rw [← hp]
      exact List.mem_map_of_mem pyLower (getD_mem_of_lt parts i "" hi)
    have hlen : (parts.map pyLower).length = parts.length := List.length_map parts pyLower
    have hfind : (parts.map pyLower).findIdx (fun p => p == "transformations") = i := by
      apply findIdx_eq_of_first (fun p => p == "transformations") "" (parts.map pyLower) i
        (by omega)
      · rw [getD_map_of_lt pyLower parts i "" "" hi]
        simpa using hp
      · intro j hj
        rw [getD_map_of_lt pyLower parts j "" "" (by omega)]
        simpa using hprev j hj
    constructor
    · intro hi2
      simp only [infer_usecase_provider_from_parts]
      rw [contains_eq_true_of_mem _ _ hmem]
      simp [hfind, hi2]
    · intro hi2
      simp only [infer_usecase_provider_from_parts]
      rw [contains_eq_true_of_mem _ _ hmem]
      simp [hfind, Nat.not_lt.mpr hi2]

/-- C5 witness: the resolver applied through the theorem at the
spec's concrete layout. -/
theorem infer_usecase_provider_spec_witness :
    infer_usecase_provider_from_parts ["A", "B", "Transformations", "file"] =
      some ("A", "B") :=
  ((infer_usecase_provider_spec.2.1 ["A", "B", "Transformations", "file"] 2
    (by decide) (by decide)
    (fun j hj => by interval_cases j <;> decide)).2 (by decide)).trans (by decide)

theorem parse_none_iff (t : String) :
    parse_dependency_csv t = none ↔ hasNul t = true := by
  unfold parse_dependency_csv
  by_cases hn : hasNul t = true
  · simp [hn]
  · simp only [hn, Bool.false_eq_true, if_false]
    cases csvRows t <;> simp [hn]

theorem mem_of_contains_eq_true (l : List String) (a : String)
    (h : l.contains a = true) : a ∈ l := by
  induction l with
  | nil => simp [List.contains] at h
  | cons x t ih =>
    have h2 : a = x ∨ a ∈ t := by simpa [List.contains_cons] using h
    rcases h2 with rfl | ht
    · exact List.mem_cons_self a t
    · exact List.mem_cons_of_mem x ht

theorem findIdx_lt_length_of_mem (p : α → Bool) (l : List α) (a : α)
    (ha : a ∈ l) (hp : p a = true) : l.findIdx p < l.length := by
  induction l with
  | nil => simp at ha
  | cons x t ih =>
    by_cases hx : p x = true
    · simp [List.findIdx_cons, hx]
    · rcases List.mem_cons.mp ha with rfl | ht
      · exact absurd hp hx
      · have hxf : p x = false := by simpa using hx
        simp only [List.findIdx_cons, hxf, cond_false, List.length_cons]
        exact Nat.succ_lt_succ (ih ht)

theorem mem_zipParts_ne_empty (m : String) : ∀ s ∈ zipParts m, s ≠ "" := by
  intro s hs
  rcases List.mem_map.mp hs with ⟨f, hf, rfl⟩
  rcases List.mem_filter.mp hf with ⟨_, hne⟩
  intro hcontra
  have hdata : f = [] := congrArg String.data hcontra
  subst hdata
  simp at hne

theorem infer_parts_mem (parts : List String) (u p : String)
    (h : infer_usecase_provider_from_parts parts = some (u, p)) :
    u ∈ parts ∧ p ∈ parts := by
  simp only [infer_usecase_provider_from_parts] at h
  by_cases hc : (parts.map pyLower).contains "transformations" = true
  · rw [if_pos hc] at h
    by_cases hidx : (parts.map pyLower).findIdx (fun q => q == "transformations") < 2
    · rw [if_pos hidx] at h; cases h
    · rw [if_neg hidx] at h
      have hlt : (parts.map pyLower).findIdx (fun q => q == "transformations") <
          (parts.map pyLower).length :=
        findIdx_lt_length_of_mem _ _ "transformations"
          (mem_of_contains_eq_true _ _ hc) (by simp)
      rw [List.length_map] at hlt
      rcases Option.some.inj h with h2
      rw [Prod.mk.injEq] at h2
      refine ⟨h2.1 ▸ getD_mem_of_lt parts _ "" (by omega), h2.2 ▸ getD_mem_of_lt parts _ "" (by omega)⟩
  · rw [if_neg hc] at h; cases h

theorem zip_resolved_ne_empty (m : String) (u p : String)
    (h : infer_usecase_provider_from_parts (zipParts m) = some (u, p)) :
    ¬ (u = "" ∨ p = "") := by
  rcases infer_parts_mem (zipParts m) u p h with ⟨hu, hp⟩
  rintro (rfl | rfl)
  · exact mem_zipParts_ne_empty m "" hu rfl
  · exact mem_zipParts_ne_empty m "" hp rfl

/-- C2 (amended): on every archive listing in which each accepted
member's decoded text parses normally (no NUL byte, which survives
best-effort decoding and makes the uncaught `csv.Error` abort the
whole scan), the archive strategy emits a record exactly for the
listing entries that are not directories, whose lowercased member name
contains both `"depend"` and `"log"`, and whose nonempty path segments
resolve to an identity; entries failing the name test or the identity
resolution are skipped without failing the batch. -/
theorem scan_zip_structure_membership :
    ∀ zs : List (String × String),
      (∀ e ∈ zs, zipAccepted e.1 → hasNul e.2 = false) →
      ∃ rs, scan_zip_structure zs = some rs ∧
        ∀ r, r ∈ rs ↔ ∃ e ∈ zs, zipMemberYields e r := by
  intro zs
  induction zs with
  | nil => exact fun _ => ⟨[], rfl, by simp⟩
  | cons e rest ih =>
    intro hy
    obtain ⟨rs', hscan', hiff'⟩ := ih (fun e' he' => hy e' (List.mem_cons_of_mem e he'))
    obtain ⟨m, txt⟩ := e
    by_cases h1 : strEndsWith m "/" = true
    · refine ⟨rs', by simp [scan_zip_structure, h1, hscan'], ?_⟩
      intro r
      rw [hiff' r]
      constructor
      · rintro ⟨e', he', hyld⟩
        exact ⟨e', List.mem_cons_of_mem _ he', hyld⟩
      · rintro ⟨e', he', hyld⟩
        rcases List.mem_cons.mp he' with rfl | he2
        · exact absurd hyld.1 (by simp [h1])
        · exact ⟨e', he2, hyld⟩
    · have h1f : strEndsWith m "/" = false := by simpa using h1
      by_cases h2 : (strContains (pyLower m) "depend" && strContains (pyLower m) "log") = true
      · rcases Bool.and_eq_true_iff.mp h2 with ⟨h2a, h2b⟩
        cases hinf : infer_usecase_provider_from_parts (zipParts m) with
        | none =>
          refine ⟨rs', by simp [scan_zip_structure, h1f, h2a, h2b, hinf, hscan'], ?_⟩
          intro r
          rw [hiff' r]
          constructor
          · rintro ⟨e', he', hyld⟩
            exact ⟨e', List.mem_cons_of_mem _ he', hyld⟩
          · rintro ⟨e', he', hyld⟩
            rcases List.mem_cons.mp he' with rfl | he2
            · rcases hyld.2.2.2 with ⟨u, p, hinf', _⟩
              rw [hinf] at hinf'; cases hinf'
            · exact ⟨e', he2, hyld⟩
        | some up =>
          obtain ⟨u, p⟩ := up
          have hne := zip_resolved_ne_empty m u p hinf
          have hacc : zipAccepted m := ⟨h1f, h2a, h2b, by simp [hinf]⟩
          have hnul : hasNul txt = false := hy (m, txt) (List.mem_cons_self _ _) hacc
          cases hp : parse_dependency_csv txt with
          | none => exact absurd ((parse_none_iff txt).mp hp) (by simp [hnul])
          | some fms =>
            refine ⟨{ usecase := u, provider := p, fms := fms } :: rs', ?_, ?_⟩
            · simp [scan_zip_structure, h1f, h2a, h2b, hinf, hne, hp, hscan']
            · intro r
              simp only [List.mem_cons]
              constructor
              · rintro (rfl | hr)
                · exact ⟨(m, txt), Or.inl rfl,
                    h1f, h2a, h2b, u, p, hinf, fms, hp, rfl⟩
                · rcases (hiff' r).mp hr with ⟨e', he', hyld⟩
                  exact ⟨e', Or.inr he', hyld⟩
              · rintro ⟨e', he', hyld⟩
                rcases he' with rfl | he2
                · rcases hyld with ⟨_, _, _, u', p', hinf', fms', hp', rfl⟩
                  rw [hinf] at hinf'
                  rcases Option.some.inj hinf' with huv
                  rw [Prod.mk.injEq] at huv
                  rw [hp] at hp'
                  rcases Option.some.inj hp' with rfl
                  exact Or.inl (by rw [huv.1, huv.2])
                · exact Or.inr ((hiff' r).mpr ⟨e', he2, hyld⟩)
      · refine ⟨rs', ?_, ?_⟩
        · have : scan_zip_structure ((m, txt) :: rest) = scan_zip_structure rest := by
            simp only [scan_zip_structure]
            rw [if_neg (by simp [h1f]), if_neg (by simpa using h2)]
          rw [this, hscan']
        · intro r
          rw [hiff' r]
          constructor
          · rintro ⟨e', he', hyld⟩
            exact ⟨e', List.mem_cons_of_mem _ he', hyld⟩
          · rintro ⟨e', he', hyld⟩
            rcases List.mem_cons.mp he' with rfl | he2
            · exact absurd (Bool.and_eq_true_iff.mpr ⟨hyld.2.1, hyld.2.2.1⟩) h2
            · exact ⟨e', he2, hyld⟩

/-- C2 witness: the membership theorem applied to a concrete listing
holding one good member, one directory entry, one unresolvable log
and one non-log file. -/
theorem scan_zip_structure_membership_witness :
    ∃ rs, scan_zip_structure
        [("A/B/Transformations/dependencies_log.txt", "1;C;FM;Z_X;y CALL FUNCTION z;1;"),
         ("A/B/Transformations/", ""),
         ("notes/depend_log", "no anchor"),
         ("A/B/Transformations/readme.txt", "x")] = some rs ∧
      ∀ r, r ∈ rs ↔ ∃ e ∈
        [(("A/B/Transformations/dependencies_log.txt" : String),
            ("1;C;FM;Z_X;y CALL FUNCTION z;1;" : String)),
         ("A/B/Transformations/", ""),
         ("notes/depend_log", "no anchor"),
         ("A/B/Transformations/readme.txt", "x")], zipMemberYields e r :=
  scan_zip_structure_membership _ (by decide)

/-- C2 counterexample: a member passing every test of the archive
strategy whose text carries a NUL byte makes `csv.reader` raise; the
exception escapes `scan_zip_structure`, so the whole batch fails and
not even this accepted member emits a record - against the claim that
a record is emitted for every such member for every listing. -/
theorem scan_zip_structure_nul_counterexample :
    zipAccepted "A/B/Transformations/dependencies_log.txt" ∧
    scan_zip_structure
      [("A/B/Transformations/dependencies_log.txt",
        "1;C;FM;Z_N;x CALL FUNCTION y\x00")] = none := by
  exact ⟨by decide, by decide⟩

theorem getLastD_mem (l : List String) (d : String) (h : l ≠ []) :
    l.getLastD d ∈ l := by
  induction l with
  | nil => exact absurd rfl h
  | cons a t ih =>
    cases t with
    | nil => simp
    | cons b t2 =>
      rw [List.getLastD_cons]
      exact List.mem_cons_of_mem a (ih (List.cons_ne_nil b t2))

/-- C8: in the directory-walk strategy, (i) a file is a candidate iff
its lowercase name contains `"depend"` and `"log"` and ends in `.txt`
or `.log` or has no dot; (ii) when candidates exist and no
root-relative segment is `"transformations"` case-insensitively (so in
particular the list does not end with one), a synthetic
`"Transformations"` segment is appended before identity resolution;
(iii) when candidates exist but resolution on the effective segments
fails, the directory contributes no record to the scan. -/
theorem scan_local_directory_spec :
    (∀ (d : DirEntry) (fn : String), fn ∈ candidateLogFiles d ↔
      fn ∈ d.filenames ∧
      strContains (pyLower fn) "depend" = true ∧
      strContains (pyLower fn) "log" = true ∧
      (strEndsWith (pyLower fn) ".txt" = true ∨ strEndsWith (pyLower fn) ".log" = true ∨
        strContains (pyLower fn) "." = false)) ∧
    (∀ d : DirEntry, candidateLogFiles d ≠ [] →
      (∀ s ∈ dirParts d.relPath, pyLower s ≠ "transformations") →
      effectiveParts d.relPath = dirParts d.relPath ++ ["Transformations"]) ∧
    (∀ (d : DirEntry) (ds : List DirEntry), candidateLogFiles d ≠ [] →
      infer_usecase_provider_from_parts (effectiveParts d.relPath) = none →
      scan_local_directory (d :: ds) = scan_local_directory ds) := by
  refine ⟨?_, ?_, ?_⟩
  · intro d fn
    simp only [candidateLogFiles, List.mem_filter, looks_like_dependency_log,
      Bool.and_eq_true, Bool.or_eq_true, Bool.not_eq_true']
    tauto
  · intro d _ h
    simp only [effectiveParts]
    have hlast : pyLower ((dirParts d.relPath).getLastD "") ≠ "transformations" := by
      cases hparts : dirParts d.relPath with
      | nil => decide
      | cons a t =>
        exact h _ (hparts ▸ getLastD_mem (a :: t) "" (List.cons_ne_nil a t))
    rw [if_pos hlast]
    rw [contains_eq_false_of_forall_ne ((dirParts d.relPath).map pyLower) "transformations"
      (fun x hx hxa => by
        rcases List.mem_map.mp hx with ⟨s, hs, rfl⟩
        exact h s hs hxa)]
    simp
  · intro d ds hcand hinf
    have hne : (candidateLogFiles d).isEmpty = false := by
      cases hc : candidateLogFiles d with
      | nil => exact absurd hc hcand
      | cons a t => rfl
    simp only [scan_local_directory, hne, Bool.false_eq_true, if_false, hinf]

/-- C8 witness: a directory directly under the walk root whose
candidates exist but whose effective segments cannot be resolved
produces nothing. -/
theorem scan_local_directory_spec_witness :
    ("dependencies_log.txt" ∈ candidateLogFiles
      { relPath := "OnlyOne", filenames := ["dependencies_log.txt"],
        content := fun _ => none }) ∧
    effectiveParts "OnlyOne" = ["OnlyOne", "Transformations"] ∧
    scan_local_directory
        [{ relPath := "OnlyOne", filenames := ["dependencies_log.txt"],
           content := fun _ => none }] =
      scan_local_directory [] :=
  ⟨(scan_local_directory_spec.1
      { relPath := "OnlyOne", filenames := ["dependencies_log.txt"],
        content := fun _ => none } "dependencies_log.txt").mpr
      ⟨List.mem_cons_self _ _, by decide, by decide, by decide⟩,
   scan_local_directory_spec.2.1
      { relPath := "OnlyOne", filenames := ["dependencies_log.txt"],
        content := fun _ => none } (by decide)
      (by intro s hs; fin_cases hs <;> decide),
   scan_local_directory_spec.2.2
      { relPath := "OnlyOne", filenames := ["dependencies_log.txt"],
        content := fun _ => none } [] (by decide) (by decide)⟩

theorem lookupUC_addUC_self (m : List (String × List String)) (fm u : String) :
    lookupUC (addUC m fm u) fm = some
      (match lookupUC m fm with
       | none => [u]
       | some ucs => if u ∈ ucs then ucs else ucs ++ [u]) := by
  induction m with
  | nil => simp [addUC, lookupUC]
  | cons e rest ih =>
    obtain ⟨k, ucs⟩ := e
    by_cases hk : k = fm
    · subst hk
      simp [addUC, lookupUC]
    · simp [addUC, lookupUC, hk, ih]

theorem lookupUC_addUC_ne (m : List (String × List String)) (fm u fm' : String)
    (h : fm' ≠ fm) : lookupUC (addUC m fm u) fm' = lookupUC m fm' := by
  induction m with
  | nil =>
    simp only [addUC, lookupUC]
    rw [if_neg (fun hc : fm = fm' => h hc.symm)]
  | cons e rest ih =>
    obtain ⟨k, ucs⟩ := e
    by_cases hk : k = fm
    · subst hk
      simp only [addUC, if_pos rfl, lookupUC]
      rw [if_neg (fun hc : k = fm' => h hc.symm), if_neg (fun hc : k = fm' => h hc.symm)]
    · simp only [addUC, if_neg hk, lookupUC, ih]

theorem lookup_addRecFms_isSome (u fm : String) :
    ∀ (fms : List String) (m : List (String × List String)),
      (lookupUC (addRecFms m u fms) fm).isSome = true ↔
        (lookupUC m fm).isSome = true ∨ fm ∈ fms := by
  intro fms
  induction fms with
  | nil => intro m; simp [addRecFms]
  | cons fm0 fms' ih =>
    intro m
    simp only [addRecFms]
    rw [ih (addUC m fm0 u)]
    by_cases hfm : fm = fm0
    · subst hfm
      rw [lookupUC_addUC_self m fm u]
      simp
    · rw [lookupUC_addUC_ne m fm0 u fm hfm]
      simp only [List.mem_cons]
      constructor
      · rintro (hs | hmem)
        · exact Or.inl hs
        · exact Or.inr (Or.inr hmem)
      · rintro (hs | (rfl | hmem))
        · exact Or.inl hs
        · exact absurd rfl hfm
        · exact Or.inr hmem

theorem lookup_addRecFms_mem (u fm x : String) :
    ∀ (fms : List String) (m : List (String × List String)),
      (∃ ucs, lookupUC (addRecFms m u fms) fm = some ucs ∧ x ∈ ucs) ↔
        (∃ ucs, lookupUC m fm = some ucs ∧ x ∈ ucs) ∨ (x = u ∧ fm ∈ fms) := by
  intro fms
  induction fms with
  | nil => intro m; simp [addRecFms]
  | cons fm0 fms' ih =>
    intro m
    simp only [addRecFms]
    rw [ih (addUC m fm0 u)]
    by_cases hfm : fm = fm0
    · subst hfm
      rw [lookupUC_addUC_self m fm u]
      cases hl : lookupUC m fm with
      | none =>
        simp only [hl]
        by_cases hxu : x = u <;> simp_all
      | some ucs0 =>
        simp only [hl]
        by_cases hu : u ∈ ucs0 <;> by_cases hxu : x = u <;>
          simp_all [List.mem_append]
    · rw [lookupUC_addUC_ne m fm0 u fm hfm]
      simp only [List.mem_cons]
      constructor
      · rintro (hs | ⟨rfl, hmem⟩)
        · exact Or.inl hs
        · exact Or.inr ⟨rfl, Or.inr hmem⟩
      · rintro (hs | ⟨rfl, rfl | hmem⟩)
        · exact Or.inl hs
        · exact absurd rfl hfm
        · exact Or.inr ⟨rfl, hmem⟩

theorem lookup_fmMapFrom_isSome (fm : String) :
    ∀ (recs : List DependencyRecord) (m : List (String × List String)),
      (lookupUC (fmMapFrom m recs) fm).isSome = true ↔
        (lookupUC m fm).isSome = true ∨ ∃ rec ∈ recs, fm ∈ rec.fms := by
  intro recs
  induction recs with
  | nil => intro m; simp [fmMapFrom]
  | cons rec rest ih =>
    intro m
    simp only [fmMapFrom]
    rw [ih (addRecFms m rec.usecase rec.fms),
      lookup_addRecFms_isSome rec.usecase fm rec.fms m]
    simp only [List.mem_cons]
    constructor
    · rintro ((hs | hmem) | ⟨r, hr, hfm⟩)
      · exact Or.inl hs
      · exact Or.inr ⟨rec, Or.inl rfl, hmem⟩
      · exact Or.inr ⟨r, Or.inr hr, hfm⟩
    · rintro (hs | ⟨r, rfl | hr, hfm⟩)
      · exact Or.inl (Or.inl hs)
      · exact Or.inl (Or.inr hfm)
      · exact Or.inr ⟨r, hr, hfm⟩

theorem lookup_fmMapFrom_mem (fm x : String) :
    ∀ (recs : List DependencyRecord) (m : List (String × List String)),
      (∃ ucs, lookupUC (fmMapFrom m recs) fm = some ucs ∧ x ∈ ucs) ↔
        (∃ ucs, lookupUC m fm = some ucs ∧ x ∈ ucs) ∨
          ∃ rec ∈ recs, rec.usecase = x ∧ fm ∈ rec.fms := by
  intro recs
  induction recs with
  | nil => intro m; simp [fmMapFrom]
  | cons rec rest ih =>
    intro m
    simp only [fmMapFrom]
    rw [ih (addRecFms m rec.usecase rec.fms),
      lookup_addRecFms_mem rec.usecase fm x rec.fms m]
    simp only [List.mem_cons]
    constructor
    · rintro ((hs | ⟨rfl, hmem⟩) | ⟨r, hr, hx, hfm⟩)
      · exact Or.inl hs
      · exact Or.inr ⟨rec, Or.inl rfl, rfl, hmem⟩
      · exact Or.inr ⟨r, Or.inr hr, hx, hfm⟩
    · rintro (hs | ⟨r, rfl | hr, hx, hfm⟩)
      · exact Or.inl (Or.inl hs)
      · exact Or.inl (Or.inr ⟨hx.symm, hfm⟩)
      · exact Or.inr ⟨r, hr, hx, hfm⟩

theorem fmMapOf_key_iff (recs : List DependencyRecord) (fm : String) :
    (lookupUC (fmMapOf recs) fm).isSome = true ↔ ∃ rec ∈ recs, fm ∈ rec.fms := by
  rw [fmMapOf, lookup_fmMapFrom_isSome fm recs []]
  simp [lookupUC]

theorem fmMapOf_mem_iff (recs : List DependencyRecord) (fm x : String) :
    (∃ ucs, lookupUC (fmMapOf recs) fm = some ucs ∧ x ∈ ucs) ↔
      ∃ rec ∈ recs, rec.usecase = x ∧ fm ∈ rec.fms := by
  rw [fmMapOf, lookup_fmMapFrom_mem fm x recs []]
  simp [lookupUC]

theorem lookup_isSome_iff_mem_keys (m : List (String × List String)) (fm : String) :
    (lookupUC m fm).isSome = true ↔ fm ∈ m.map Prod.fst := by
  induction m with
  | nil => simp [lookupUC]
  | cons e rest ih =>
    obtain ⟨k, ucs⟩ := e
    by_cases hk : k = fm
    · subst hk
      simp [lookupUC]
    · simp [lookupUC, hk, ih, Ne.symm hk]

theorem keys_addUC (m : List (String × List String)) (fm u : String) :
    (addUC m fm u).map Prod.fst =
      if fm ∈ m.map Prod.fst then m.map Prod.fst else m.map Prod.fst ++ [fm] := by
  induction m with
  | nil => simp [addUC]
  | cons e rest ih =>
    obtain ⟨k, ucs⟩ := e
    by_cases hk : k = fm
    · subst hk
      simp [addUC]
    · simp only [addUC, if_neg hk, List.map_cons, ih, List.mem_cons]
      by_cases hmem : fm ∈ rest.map Prod.fst
      · rw [if_pos hmem, if_pos (Or.inr hmem)]
      · rw [if_neg hmem, if_neg (by rintro (h | h); exact hk h.symm; exact hmem h)]
        simp

theorem keys_nodup_addUC (m : List (String × List String)) (fm u : String)
    (h : (m.map Prod.fst).Nodup) : ((addUC m fm u).map Prod.fst).Nodup := by
  rw [keys_addUC]
  by_cases hmem : fm ∈ m.map Prod.fst
  · rwa [if_pos hmem]
  · rw [if_neg hmem, ← List.concat_eq_append]
    exact h.concat hmem

theorem keys_nodup_addRecFms (u : String) :
    ∀ (fms : List String) (m : List (String × List String)),
      (m.map Prod.fst).Nodup → ((addRecFms m u fms).map Prod.fst).Nodup := by
  intro fms
  induction fms with
  | nil => intro m h; exact h
  | cons fm0 fms' ih =>
    intro m h
    exact ih (addUC m fm0 u) (keys_nodup_addUC m fm0 u h)

theorem keys_nodup_fmMapOf (recs : List DependencyRecord) :
    ((fmMapOf recs).map Prod.fst).Nodup := by
  have hgen : ∀ (rs : List DependencyRecord) (m : List (String × List String)),
      (m.map Prod.fst).Nodup → ((fmMapFrom m rs).map Prod.fst).Nodup := by
    intro rs
    induction rs with
    | nil => intro m h; exact h
    | cons rec rest ih =>
      intro m h
      exact ih (addRecFms m rec.usecase rec.fms) (keys_nodup_addRecFms rec.usecase rec.fms m h)
  exact hgen recs [] (by simp)

theorem vals_nodup_addUC (m : List (String × List String)) (fm u : String)
    (h : ∀ e ∈ m, e.2.Nodup) : ∀ e ∈ addUC m fm u, e.2.Nodup := by
  induction m with
  | nil =>
    intro e he
    simp only [addUC, List.mem_singleton] at he
    subst he
    simp
  | cons e0 rest ih =>
    obtain ⟨k, ucs⟩ := e0
    intro e he
    by_cases hk : k = fm
    · subst hk
      rw [show addUC ((k, ucs) :: rest) k u =
          (k, if u ∈ ucs then ucs else ucs ++ [u]) :: rest from by simp [addUC]] at he
      rcases List.mem_cons.mp he with heq | he2
      · rw [heq]
        show (if u ∈ ucs then ucs else ucs ++ [u]).Nodup
        have hnd : ucs.Nodup := h (k, ucs) (List.mem_cons_self _ _)
        by_cases hu : u ∈ ucs
        · rwa [if_pos hu]
        · rw [if_neg hu, ← List.concat_eq_append]
          exact hnd.concat hu
      · exact h e (List.mem_cons_of_mem _ he2)
    · rw [show addUC ((k, ucs) :: rest) fm u = (k, ucs) :: addUC rest fm u from by
        simp [addUC, hk]] at he
      rcases List.mem_cons.mp he with heq | he2
      · rw [heq]
        exact h (k, ucs) (List.mem_cons_self _ _)
      · exact ih (fun e' he' => h e' (List.mem_cons_of_mem _ he')) e he2

theorem vals_nodup_fmMapOf (recs : List DependencyRecord) :
    ∀ e ∈ fmMapOf recs, e.2.Nodup := by
  have hadd : ∀ (u : String) (fms : List String) (m : List (String × List String)),
      (∀ e ∈ m, e.2.Nodup) → ∀ e ∈ addRecFms m u fms, e.2.Nodup := by
    intro u fms
    induction fms with
    | nil => intro m h; exact h
    | cons fm0 fms' ih =>
      intro m h
      exact ih (addUC m fm0 u) (vals_nodup_addUC m fm0 u h)
  have hgen : ∀ (rs : List DependencyRecord) (m : List (String × List String)),
      (∀ e ∈ m, e.2.Nodup) → ∀ e ∈ fmMapFrom m rs, e.2.Nodup := by
    intro rs
    induction rs with
    | nil => intro m h; exact h
    | cons rec rest ih =>
      intro m h
      exact ih (addRecFms m rec.usecase rec.fms) (hadd rec.usecase rec.fms m h)
  exact hgen recs [] (by simp)

theorem mem_iff_lookup_of_keys_nodup (m : List (String × List String))
    (hnd : (m.map Prod.fst).Nodup) (fm : String) (ucs : List String) :
    (fm, ucs) ∈ m ↔ lookupUC m fm = some ucs := by
  induction m with
  | nil => simp [lookupUC]
  | cons e rest ih =>
    obtain ⟨k, v⟩ := e
    have hsplit : (∀ x : List String, (k, x) ∉ rest) ∧ (rest.map Prod.fst).Nodup := by
      simpa using hnd
    obtain ⟨hknot, hrest⟩ := hsplit
    by_cases hkfm : k = fm
    · subst hkfm
      rw [show lookupUC ((k, v) :: rest) k = some v from by simp [lookupUC]]
      simp only [List.mem_cons, Prod.mk.injEq, Option.some.injEq]
      constructor
      · rintro (⟨_, rfl⟩ | hmem)
        · rfl
        · exact absurd hmem (hknot ucs)
      · rintro rfl
        simp
    · rw [show lookupUC ((k, v) :: rest) fm = lookupUC rest fm from by simp [lookupUC, hkfm]]
      simp only [List.mem_cons, Prod.mk.injEq]
      rw [← ih hrest]
      constructor
      · rintro (⟨rfl, _⟩ | hmem)
        · exact absurd rfl hkfm
        · exact hmem
      · intro hmem
        exact Or.inr hmem

theorem fmMapFrom_all_empty :
    ∀ (recs : List DependencyRecord) (m : List (String × List String)),
      (∀ rec ∈ recs, rec.fms = []) → fmMapFrom m recs = m := by
  intro recs
  induction recs with
  | nil => intro m _; rfl
  | cons rec rest ih =>
    intro m h
    have hfe : rec.fms = [] := h rec (List.mem_cons_self _ _)
    simp only [fmMapFrom, hfe, addRecFms]
    exact ih m (fun r hr => h r (List.mem_cons_of_mem _ hr))

theorem fmMapOf_eq_nil_iff (recs : List DependencyRecord) :
    fmMapOf recs = [] ↔ ∀ rec ∈ recs, rec.fms = [] := by
  constructor
  · intro h rec hrec
    cases hfe : rec.fms with
    | nil => rfl
    | cons fm rest =>
      have hkey : (lookupUC (fmMapOf recs) fm).isSome = true :=
        (fmMapOf_key_iff recs fm).mpr ⟨rec, hrec, by simp [hfe]⟩
      rw [h] at hkey
      simp [lookupUC] at hkey
  · intro h
    exact fmMapFrom_all_empty recs [] h

theorem fmMapOf_filter_nonempty (recs : List DependencyRecord) :
    fmMapOf recs = fmMapOf (recs.filter (fun r => !r.fms.isEmpty)) := by
  have hgen : ∀ (rs : List DependencyRecord) (m : List (String × List String)),
      fmMapFrom m rs = fmMapFrom m (rs.filter (fun r => !r.fms.isEmpty)) := by
    intro rs
    induction rs with
    | nil => intro m; rfl
    | cons rec rest ih =>
      intro m
      cases hfe : rec.fms with
      | nil =>
        have hemp : (!rec.fms.isEmpty) = false := by simp [hfe]
        simp only [fmMapFrom, hfe, addRecFms, List.filter_cons, hemp, Bool.false_eq_true,
          if_false]
        exact ih m
      | cons fm0 fms' =>
        have hemp : (!rec.fms.isEmpty) = true := by simp [hfe]
        simp only [fmMapFrom, List.filter_cons, hemp, if_true]
        exact ih (addRecFms m rec.usecase rec.fms)
  exact hgen recs []

theorem mem_keys_fmMapOf_iff (recs : List DependencyRecord) (fm : String) :
    fm ∈ (fmMapOf recs).map Prod.fst ↔ ∃ rec ∈ recs, fm ∈ rec.fms := by
  rw [← lookup_isSome_iff_mem_keys, fmMapOf_key_iff]

theorem entry_mem_fmMapOf (recs : List DependencyRecord) (fm : String)
    (ucs : List String) (h : (fm, ucs) ∈ fmMapOf recs) :
    ∀ x, x ∈ ucs ↔ ∃ rec ∈ recs, rec.usecase = x ∧ fm ∈ rec.fms := by
  intro x
  have hl : lookupUC (fmMapOf recs) fm = some ucs :=
    (mem_iff_lookup_of_keys_nodup _ (keys_nodup_fmMapOf recs) fm ucs).mp h
  rw [← fmMapOf_mem_iff recs fm x]
  constructor
  · intro hx
    exact ⟨ucs, hl, hx⟩
  · rintro ⟨ucs', hl', hx⟩
    rw [hl] at hl'
    rcases Option.some.inj hl' with rfl
    exact hx

theorem entry_length_eq_fmReferenceCount (recs : List DependencyRecord) (fm : String)
    (ucs : List String) (h : (fm, ucs) ∈ fmMapOf recs) :
    ucs.length = fmReferenceCount recs fm := by
  have hnd : ucs.Nodup := vals_nodup_fmMapOf recs (fm, ucs) h
  have hmem := entry_mem_fmMapOf recs fm ucs h
  unfold fmReferenceCount
  apply List.Perm.length_eq
  apply (List.perm_ext_iff_of_nodup hnd (List.nodup_dedup _)).mpr
  intro x
  rw [hmem x, List.mem_dedup, List.mem_map]
  constructor
  · rintro ⟨rec, hrec, rfl, hfm⟩
    exact ⟨rec, List.mem_filter.mpr ⟨hrec, by simp [hfm]⟩, rfl⟩
  · rintro ⟨rec, hrec, rfl⟩
    rcases List.mem_filter.mp hrec with ⟨hr, hd⟩
    exact ⟨rec, hr, rfl, by simpa using hd⟩

theorem keys_perm_allFms (recs : List DependencyRecord) :
    ((fmMapOf recs).map Prod.fst).Perm (allFms recs) := by
  apply (List.perm_ext_iff_of_nodup (keys_nodup_fmMapOf recs) (List.nodup_dedup _)).mpr
  intro fm
  rw [mem_keys_fmMapOf_iff]
  rw [List.mem_dedup, List.mem_flatMap]

/-- C9: the aggregator fails (modelled as `none`, for the `KeyError`
pandas raises when sorting a column-less empty DataFrame) exactly when
no record carries any FM - including the empty record sequence - so it
implicitly requires at least one record with at least one extracted
FM. -/
theorem build_requires_some_fm (records : List DependencyRecord) :
    build_analysis_outputs records = none ↔ ∀ rec ∈ records, rec.fms = [] := by
  simp only [build_analysis_outputs]
  by_cases hc : ((records.map (fun rec =>
      { usecase := rec.usecase, provider := rec.provider,
        fm_list := joinComma rec.fms : UCRow })).isEmpty || (fmMapOf records).isEmpty) = true
  · rw [if_pos hc]
    simp only [true_iff]
    rcases Bool.or_eq_true_iff.mp hc with hrows | hmap
    · have : records = [] := by
        cases records with
        | nil => rfl
        | cons r rs => simp at hrows
      subst this
      intro rec hrec
      simp at hrec
    · exact (fmMapOf_eq_nil_iff records).mp (List.isEmpty_iff.mp hmap)
  · rw [if_neg hc]
    constructor
    · intro h
      cases h
    · intro h
      exfalso
      apply hc
      apply Bool.or_eq_true_iff.mpr
      exact Or.inr (List.isEmpty_iff.mpr ((fmMapOf_eq_nil_iff records).mpr h))

/-- C6 counterexample: a single record with an empty FM set makes the
aggregator raise instead of producing a one-row forward table. -/
theorem build_zero_fm_counterexample :
    build_analysis_outputs [{ usecase := "UC1", provider := "P1", fms := [] }] = none := by
  decide

theorem build_some_elim (records : List DependencyRecord) (T : AnalysisTables)
    (h : build_analysis_outputs records = some T) :
    T = { usecaseProvider := insSort ucRowLe (records.map (fun rec =>
            { usecase := rec.usecase, provider := rec.provider,
              fm_list := joinComma rec.fms }))
          fmUsecase := insSort fmRowLe ((fmMapOf records).map (fun e =>
            { fm := e.1, usecases := joinComma (insSort strLe e.2) }))
          uniqueFms := insSort strLe ((fmMapOf records).map (fun e => e.1))
          summary :=
            { totalUseCases := ((records.map (fun rec =>
                { usecase := rec.usecase, provider := rec.provider,
                  fm_list := joinComma rec.fms : UCRow })).map (fun r => r.usecase)).dedup.length
              totalProviders := ((records.map (fun rec =>
                { usecase := rec.usecase, provider := rec.provider,
                  fm_list := joinComma rec.fms : UCRow })).map (fun r => r.provider)).dedup.length
              totalLogsProcessed := records.length
              totalUniqueFms := (insSort strLe ((fmMapOf records).map (fun e => e.1))).length
              top5MostUsedFms := joinComma ((((insSort (fun a b => decide (a.2 ≤ b.2))
                ((fmMapOf records).map (fun e => (e.1, e.2.length)))).reverse).take 5).map
                  (fun e => e.1)) } } := by
  simp only [build_analysis_outputs] at h
  by_cases hc : ((records.map (fun rec =>
      { usecase := rec.usecase, provider := rec.provider,
        fm_list := joinComma rec.fms : UCRow })).isEmpty || (fmMapOf records).isEmpty) = true
  · rw [if_pos hc] at h
    cases h
  · rw [if_neg hc] at h
    exact (Option.some.inj h).symm

/-- C6 (amended): whenever the aggregator returns (which requires some
record to carry an FM), the forward table has exactly one row per
input record - a record with an empty FM set getting an empty
`fm_list` - the summary's total-logs count equals the number of input
records, and the reverse mapping (from which the other two tables and
the FM counts are built) is unchanged by dropping the empty-FM
records. -/
theorem build_forward_table (records : List DependencyRecord) (T : AnalysisTables)
    (h : build_analysis_outputs records = some T) :
    T.usecaseProvider.Perm (records.map (fun rec =>
      { usecase := rec.usecase, provider := rec.provider,
        fm_list := joinComma rec.fms })) ∧
    T.summary.totalLogsProcessed = records.length ∧
    (∀ rec ∈ records, rec.fms = [] →
      ({ usecase := rec.usecase, provider := rec.provider, fm_list := "" } : UCRow) ∈
        T.usecaseProvider) ∧
    fmMapOf records = fmMapOf (records.filter (fun r => !r.fms.isEmpty)) := by
  rcases build_some_elim records T h with rfl
  refine ⟨perm_insSort _ _, rfl, ?_, fmMapOf_filter_nonempty records⟩
  intro rec hrec hfe
  show _ ∈ insSort ucRowLe _
  rw [mem_insSort]
  have : ({ usecase := rec.usecase, provider := rec.provider, fm_list := "" } : UCRow) =
      { usecase := rec.usecase, provider := rec.provider, fm_list := joinComma rec.fms } := by
    rw [hfe]
    rfl
  rw [this]
  exact List.mem_map_of_mem _ hrec

/-- C6 witness: the amended theorem applied to a mixed batch with one
empty-FM record. -/
theorem build_forward_table_witness :
    ∃ T, build_analysis_outputs
        ([{ usecase := "UC1", provider := "P1", fms := ["Z_FOO"] },
          { usecase := "UC2", provider := "P2", fms := [] }] : List DependencyRecord) =
          some T ∧
      (T.usecaseProvider.Perm
        (([{ usecase := "UC1", provider := "P1", fms := ["Z_FOO"] },
           { usecase := "UC2", provider := "P2", fms := [] }] :
            List DependencyRecord).map (fun rec =>
          { usecase := rec.usecase, provider := rec.provider,
            fm_list := joinComma rec.fms })) ∧
       T.summary.totalLogsProcessed =
        ([{ usecase := "UC1", provider := "P1", fms := ["Z_FOO"] },
          { usecase := "UC2", provider := "P2", fms := [] }] :
            List DependencyRecord).length ∧
       (∀ rec ∈ ([{ usecase := "UC1", provider := "P1", fms := ["Z_FOO"] },
          { usecase := "UC2", provider := "P2", fms := [] }] :
            List DependencyRecord), rec.fms = [] →
         ({ usecase := rec.usecase, provider := rec.provider, fm_list := "" } : UCRow) ∈
           T.usecaseProvider) ∧
       fmMapOf ([{ usecase := "UC1", provider := "P1", fms := ["Z_FOO"] },
          { usecase := "UC2", provider := "P2", fms := [] }] : List DependencyRecord) =
         fmMapOf (([{ usecase := "UC1", provider := "P1", fms := ["Z_FOO"] },
          { usecase := "UC2", provider := "P2", fms := [] }] :
            List DependencyRecord).filter (fun r => !r.fms.isEmpty))) := by
  have h : build_analysis_outputs
      ([{ usecase := "UC1", provider := "P1", fms := ["Z_FOO"] },
        { usecase := "UC2", provider := "P2", fms := [] }] : List DependencyRecord) =
      some { usecaseProvider :=
               [{ usecase := "UC1", provider := "P1", fm_list := "Z_FOO" },
                { usecase := "UC2", provider := "P2", fm_list := "" }]
             fmUsecase := [{ fm := "Z_FOO", usecases := "UC1" }]
             uniqueFms := ["Z_FOO"]
             summary := { totalUseCases := 2, totalProviders := 2,
                          totalLogsProcessed := 2, totalUniqueFms := 1,
                          top5MostUsedFms := "Z_FOO" } } := by decide
  exact ⟨_, h, build_forward_table _ _ h⟩

/-- C7: whenever the aggregator returns, the FM names keyed in the
reverse table (and listed in the unique-FM table) are exactly the
union of the per-record FM sets, and each FM row's use-case string is
the sorted, comma-joined set of exactly those use-cases whose records
contain the FM. -/
theorem build_reverse_mapping (records : List DependencyRecord) (T : AnalysisTables)
    (h : build_analysis_outputs records = some T) :
    (∀ fm, (∃ s, ({ fm := fm, usecases := s } : FmUsecaseRow) ∈ T.fmUsecase) ↔
      ∃ rec ∈ records, fm ∈ rec.fms) ∧
    (∀ fm, fm ∈ T.uniqueFms ↔ ∃ rec ∈ records, fm ∈ rec.fms) ∧
    (∀ fm s, ({ fm := fm, usecases := s } : FmUsecaseRow) ∈ T.fmUsecase →
      ∃ l : List String, s = joinComma l ∧ l.Nodup ∧
        l.Pairwise (fun a b => strLe a b = true) ∧
        (∀ u, u ∈ l ↔ ∃ rec ∈ records, rec.usecase = u ∧ fm ∈ rec.fms)) := by
  rcases build_some_elim records T h with rfl
  dsimp only
  refine ⟨?_, ?_, ?_⟩
  · intro fm
    constructor
    · rintro ⟨s, hs⟩
      rw [mem_insSort] at hs
      rcases List.mem_map.mp hs with ⟨e, hemem, heq⟩
      obtain ⟨k, ucs⟩ := e
      have hk : k = fm := congrArg FmUsecaseRow.fm heq
      subst hk
      exact (mem_keys_fmMapOf_iff records k).mp (List.mem_map_of_mem Prod.fst hemem)
    · intro hx
      have hkey := (mem_keys_fmMapOf_iff records fm).mpr hx
      rcases List.mem_map.mp hkey with ⟨e, hemem, hfst⟩
      obtain ⟨k, ucs⟩ := e
      have hk : k = fm := hfst
      subst hk
      refine ⟨joinComma (insSort strLe ucs), ?_⟩
      rw [mem_insSort]
      exact List.mem_map_of_mem _ hemem
  · intro fm
    rw [mem_insSort]
    have hiff : fm ∈ ((fmMapOf records).map (fun e => e.1)) ↔
        fm ∈ ((fmMapOf records).map Prod.fst) := Iff.rfl
    rw [hiff, mem_keys_fmMapOf_iff]
  · intro fm s hs
    rw [mem_insSort] at hs
    rcases List.mem_map.mp hs with ⟨e, hemem, heq⟩
    obtain ⟨k, ucs⟩ := e
    have hk : k = fm := congrArg FmUsecaseRow.fm heq
    subst hk
    have hsv : joinComma (insSort strLe ucs) = s := congrArg FmUsecaseRow.usecases heq
    refine ⟨insSort strLe ucs, hsv.symm,
      ((perm_insSort strLe ucs).nodup_iff).mpr (vals_nodup_fmMapOf records (k, ucs) hemem),
      sorted_insSort strLe strLe_total strLe_trans ucs, ?_⟩
    intro u
    rw [mem_insSort]
    exact entry_mem_fmMapOf records k ucs hemem u

/-- C7 witness: the spec's end-to-end example. -/
theorem build_reverse_mapping_witness :
    ∃ T, build_analysis_outputs
        ([{ usecase := "UC1", provider := "P1", fms := ["Z_BAR", "Z_FOO"] },
          { usecase := "UC2", provider := "P1", fms := ["Z_FOO"] }] :
          List DependencyRecord) = some T ∧
      ((∀ fm, (∃ s, ({ fm := fm, usecases := s } : FmUsecaseRow) ∈ T.fmUsecase) ↔
        ∃ rec ∈ ([{ usecase := "UC1", provider := "P1", fms := ["Z_BAR", "Z_FOO"] },
          { usecase := "UC2", provider := "P1", fms := ["Z_FOO"] }] :
            List DependencyRecord), fm ∈ rec.fms) ∧
       (∀ fm, fm ∈ T.uniqueFms ↔
        ∃ rec ∈ ([{ usecase := "UC1", provider := "P1", fms := ["Z_BAR", "Z_FOO"] },
          { usecase := "UC2", provider := "P1", fms := ["Z_FOO"] }] :
            List DependencyRecord), fm ∈ rec.fms) ∧
       (∀ fm s, ({ fm := fm, usecases := s } : FmUsecaseRow) ∈ T.fmUsecase →
        ∃ l : List String, s = joinComma l ∧ l.Nodup ∧
          l.Pairwise (fun a b => strLe a b = true) ∧
          (∀ u, u ∈ l ↔
            ∃ rec ∈ ([{ usecase := "UC1", provider := "P1", fms := ["Z_BAR", "Z_FOO"] },
              { usecase := "UC2", provider := "P1", fms := ["Z_FOO"] }] :
                List DependencyRecord), rec.usecase = u ∧ fm ∈ rec.fms))) := by
  have h : build_analysis_outputs
      ([{ usecase := "UC1", provider := "P1", fms := ["Z_BAR", "Z_FOO"] },
        { usecase := "UC2", provider := "P1", fms := ["Z_FOO"] }] :
        List DependencyRecord) =
      some { usecaseProvider :=
               [{ usecase := "UC1", provider := "P1", fm_list := "Z_BAR, Z_FOO" },
                { usecase := "UC2", provider := "P1", fm_list := "Z_FOO" }]
             fmUsecase := [{ fm := "Z_BAR", usecases := "UC1" },
                           { fm := "Z_FOO", usecases := "UC1, UC2" }]
             uniqueFms := ["Z_BAR", "Z_FOO"]
             summary := { totalUseCases := 2, totalProviders := 1,
                          totalLogsProcessed := 2, totalUniqueFms := 2,
                          top5MostUsedFms := "Z_FOO, Z_BAR" } } := by decide
  exact ⟨_, h, build_reverse_mapping _ _ h⟩

theorem natPairLe_total : ∀ a b : String × Nat,
    (fun a b : String × Nat => decide (a.2 ≤ b.2)) a b = true ∨
    (fun a b : String × Nat => decide (a.2 ≤ b.2)) b a = true := by
  intro a b
  rcases Nat.le_total a.2 b.2 with h | h
  · left; simpa using h
  · right; simpa using h

theorem natPairLe_trans : ∀ a b c : String × Nat,
    (fun a b : String × Nat => decide (a.2 ≤ b.2)) a b = true →
    (fun a b : String × Nat => decide (a.2 ≤ b.2)) b c = true →
    (fun a b : String × Nat => decide (a.2 ≤ b.2)) a c = true := by
  intro a b c hab hbc
  simp only [decide_eq_true_eq] at hab hbc ⊢
  omega

theorem mem_freq_count (records : List DependencyRecord) (q : String × Nat)
    (hq : q ∈ (fmMapOf records).map (fun e => (e.1, e.2.length))) :
    q.2 = fmReferenceCount records q.1 := by
  rcases List.mem_map.mp hq with ⟨e, hemem, heq⟩
  obtain ⟨fm, ucs⟩ := e
  rw [← heq]
  exact entry_length_eq_fmReferenceCount records fm ucs hemem

/-- C1 (amended): whenever the aggregator returns, the summary's
top-5 entry is the comma-join of a duplicate-free list of
min(5, number of distinct FMs) FM names drawn from the records, in
non-increasing order of distinct-use-case count, every listed FM
counting at least as high as every unlisted one.  (The order among FMs
of equal count is the reverse of first-appearance order - a library
artefact - not FM name ascending.) -/
theorem build_top5_ranked_by_usecase_count (records : List DependencyRecord)
    (T : AnalysisTables) (h : build_analysis_outputs records = some T) :
    ∃ l : List String, T.summary.top5MostUsedFms = joinComma l ∧
      l.Nodup ∧
      l.length = min 5 (allFms records).length ∧
      (∀ fm ∈ l, ∃ rec ∈ records, fm ∈ rec.fms) ∧
      l.Pairwise (fun a b => fmReferenceCount records b ≤ fmReferenceCount records a) ∧
      (∀ fm ∈ l, ∀ fm', (∃ rec ∈ records, fm' ∈ rec.fms) → fm' ∉ l →
        fmReferenceCount records fm' ≤ fmReferenceCount records fm) := by
  rcases build_some_elim records T h with rfl
  dsimp only
  refine ⟨_, rfl, ?_, ?_, ?_, ?_, ?_⟩
  all_goals
    have hfreqkeys : ((fmMapOf records).map (fun e => (e.1, e.2.length))).map Prod.fst =
        (fmMapOf records).map Prod.fst := by
      rw [List.map_map]; rfl
    have hSperm : (insSort (fun a b : String × Nat => decide (a.2 ≤ b.2))
        ((fmMapOf records).map (fun e => (e.1, e.2.length)))).Perm
        ((fmMapOf records).map (fun e => (e.1, e.2.length))) := perm_insSort _ _
    have hDperm : (insSort (fun a b : String × Nat => decide (a.2 ≤ b.2))
        ((fmMapOf records).map (fun e => (e.1, e.2.length)))).reverse.Perm
        ((fmMapOf records).map (fun e => (e.1, e.2.length))) :=
      (List.reverse_perm _).trans hSperm
    have hDkeysNodup : ((insSort (fun a b : String × Nat => decide (a.2 ≤ b.2))
        ((fmMapOf records).map (fun e => (e.1, e.2.length)))).reverse.map Prod.fst).Nodup := by
      refine ((hDperm.map Prod.fst).nodup_iff).mpr ?_
      rw [hfreqkeys]
      exact keys_nodup_fmMapOf records
    have htakeSub : ((insSort (fun a b : String × Nat => decide (a.2 ≤ b.2))
        ((fmMapOf records).map (fun e => (e.1, e.2.length)))).reverse.take 5).Sublist
        (insSort (fun a b : String × Nat => decide (a.2 ≤ b.2))
          ((fmMapOf records).map (fun e => (e.1, e.2.length)))).reverse :=
      List.take_sublist 5 _
    have hmemfreq : ∀ q ∈ (insSort (fun a b : String × Nat => decide (a.2 ≤ b.2))
        ((fmMapOf records).map (fun e => (e.1, e.2.length)))).reverse.take 5,
        q ∈ (fmMapOf records).map (fun e => (e.1, e.2.length)) :=
      fun q hq => hDperm.mem_iff.mp (htakeSub.subset hq)
  · exact (List.Sublist.map (fun e => e.1) htakeSub).nodup hDkeysNodup
  · rw [List.length_map, List.length_take, List.length_reverse,
      hSperm.length_eq, List.length_map]
    have : (allFms records).length = ((fmMapOf records).map Prod.fst).length :=
      ((keys_perm_allFms records).length_eq).symm
    rw [this, List.length_map]
  · intro fm hfm
    rcases List.mem_map.mp hfm with ⟨q, hq, rfl⟩
    have hqf := hmemfreq q hq
    have : q.1 ∈ (fmMapOf records).map Prod.fst := by
      rw [← hfreqkeys]
      exact List.mem_map_of_mem Prod.fst hqf
    exact (mem_keys_fmMapOf_iff records q.1).mp this
  · apply List.pairwise_map.mpr
    have hS : (insSort (fun a b : String × Nat => decide (a.2 ≤ b.2))
        ((fmMapOf records).map (fun e => (e.1, e.2.length)))).Pairwise
        (fun a b => (fun a b : String × Nat => decide (a.2 ≤ b.2)) a b = true) :=
      sorted_insSort _ natPairLe_total natPairLe_trans _
    have hD : (insSort (fun a b : String × Nat => decide (a.2 ≤ b.2))
        ((fmMapOf records).map (fun e => (e.1, e.2.length)))).reverse.Pairwise
        (fun a b => b.2 ≤ a.2) := by
      rw [List.pairwise_reverse]
      exact hS.imp (fun hab => by simpa using hab)
    have hTk := hD.sublist htakeSub
    refine hTk.imp_of_mem ?_
    intro a b ha hb hba
    rw [← mem_freq_count records a (hmemfreq a ha), ← mem_freq_count records b (hmemfreq b hb)]
    exact hba
  · intro fm hfm fm' hfm' hnot
    rcases List.mem_map.mp hfm with ⟨qa, hqa, rfl⟩
    have hkey : fm' ∈ ((fmMapOf records).map (fun e => (e.1, e.2.length))).map Prod.fst := by
      rw [hfreqkeys]
      exact (mem_keys_fmMapOf_iff records fm').mpr hfm'
    rcases List.mem_map.mp hkey with ⟨qb, hqbfreq, hqbfst⟩
    have hqbD : qb ∈ (insSort (fun a b : String × Nat => decide (a.2 ≤ b.2))
        ((fmMapOf records).map (fun e => (e.1, e.2.length)))).reverse :=
      hDperm.mem_iff.mpr hqbfreq
    rw [← List.take_append_drop 5 ((insSort (fun a b : String × Nat => decide (a.2 ≤ b.2))
        ((fmMapOf records).map (fun e => (e.1, e.2.length)))).reverse)] at hqbD
    rcases List.mem_append.mp hqbD with hqbTk | hqbDr
    · exact absurd (hqbfst ▸ List.mem_map_of_mem (fun e => e.1) hqbTk) hnot
    · have hS : (insSort (fun a b : String × Nat => decide (a.2 ≤ b.2))
          ((fmMapOf records).map (fun e => (e.1, e.2.length)))).Pairwise
          (fun a b => (fun a b : String × Nat => decide (a.2 ≤ b.2)) a b = true) :=
        sorted_insSort _ natPairLe_total natPairLe_trans _
      have hD : (insSort (fun a b : String × Nat => decide (a.2 ≤ b.2))
          ((fmMapOf records).map (fun e => (e.1, e.2.length)))).reverse.Pairwise
          (fun a b => b.2 ≤ a.2) := by
        rw [List.pairwise_reverse]
        exact hS.imp (fun hab => by simpa using hab)
      rw [← List.take_append_drop 5 ((insSort (fun a b : String × Nat => decide (a.2 ≤ b.2))
          ((fmMapOf records).map (fun e => (e.1, e.2.length)))).reverse)] at hD
      rcases List.pairwise_append.mp hD with ⟨_, _, hcross⟩
      have hble : qb.2 ≤ qa.2 := hcross qa hqa qb hqbDr
      have hqbfreq2 : qb ∈ (fmMapOf records).map (fun e => (e.1, e.2.length)) := hqbfreq
      rw [← mem_freq_count records qa (hmemfreq qa hqa), ← hqbfst,
        ← mem_freq_count records qb hqbfreq2]
      exact hble

/-- C1 counterexample: two FMs tied at one referencing use-case each,
first seen in name-ascending order, are listed in name-descending
order: the tie is not broken by FM name ascending. -/
theorem build_top5_tie_counterexample :
    (build_analysis_outputs
        ([{ usecase := "U1", provider := "P", fms := ["FM_A"] },
          { usecase := "U2", provider := "P", fms := ["FM_Z"] }] :
          List DependencyRecord)).map (fun T => T.summary.top5MostUsedFms) =
      some "FM_Z, FM_A" ∧
    fmReferenceCount
        ([{ usecase := "U1", provider := "P", fms := ["FM_A"] },
          { usecase := "U2", provider := "P", fms := ["FM_Z"] }] :
          List DependencyRecord) "FM_A" =
      fmReferenceCount
        ([{ usecase := "U1", provider := "P", fms := ["FM_A"] },
          { usecase := "U2", provider := "P", fms := ["FM_Z"] }] :
          List DependencyRecord) "FM_Z" ∧
    "FM_Z, FM_A" ≠ "FM_A, FM_Z" := by
  refine ⟨by decide, by decide, by decide⟩

/-- C1 witness: the amended theorem applied to the tied two-record
batch. -/
theorem build_top5_ranked_witness :
    ∃ T, build_analysis_outputs
        ([{ usecase := "U1", provider := "P", fms := ["FM_A"] },
          { usecase := "U2", provider := "P", fms := ["FM_Z"] }] :
          List DependencyRecord) = some T ∧
      ∃ l : List String, T.summary.top5MostUsedFms = joinComma l ∧
        l.Nodup ∧
        l.length = min 5 (allFms
          ([{ usecase := "U1", provider := "P", fms := ["FM_A"] },
            { usecase := "U2", provider := "P", fms := ["FM_Z"] }] :
            List DependencyRecord)).length ∧
        (∀ fm ∈ l, ∃ rec ∈ ([{ usecase := "U1", provider := "P", fms := ["FM_A"] },
            { usecase := "U2", provider := "P", fms := ["FM_Z"] }] :
            List DependencyRecord), fm ∈ rec.fms) ∧
        l.Pairwise (fun a b =>
          fmReferenceCount
            ([{ usecase := "U1", provider := "P", fms := ["FM_A"] },
              { usecase := "U2", provider := "P", fms := ["FM_Z"] }] :
              List DependencyRecord) b ≤
          fmReferenceCount
            ([{ usecase := "U1", provider := "P", fms := ["FM_A"] },
              { usecase := "U2", provider := "P", fms := ["FM_Z"] }] :
              List DependencyRecord) a) ∧
        (∀ fm ∈ l, ∀ fm',
          (∃ rec ∈ ([{ usecase := "U1", provider := "P", fms := ["FM_A"] },
              { usecase := "U2", provider := "P", fms := ["FM_Z"] }] :
              List DependencyRecord), fm' ∈ rec.fms) → fm' ∉ l →
          fmReferenceCount
            ([{ usecase := "U1", provider := "P", fms := ["FM_A"] },
              { usecase := "U2", provider := "P", fms := ["FM_Z"] }] :
              List DependencyRecord) fm' ≤
          fmReferenceCount
            ([{ usecase := "U1", provider := "P", fms := ["FM_A"] },
              { usecase := "U2", provider := "P", fms := ["FM_Z"] }] :
              List DependencyRecord) fm) := by
  have h : build_analysis_outputs
      ([{ usecase := "U1", provider := "P", fms := ["FM_A"] },
        { usecase := "U2", provider := "P", fms := ["FM_Z"] }] :
        List DependencyRecord) =
      some { usecaseProvider :=
               [{ usecase := "U1", provider := "P", fm_list := "FM_A" },
                { usecase := "U2", provider := "P", fm_list := "FM_Z" }]
             fmUsecase := [{ fm := "FM_A", usecases := "U1" },
                           { fm := "FM_Z", usecases := "U2" }]
             uniqueFms := ["FM_A", "FM_Z"]
             summary := { totalUseCases := 2, totalProviders := 1,
                          totalLogsProcessed := 2, totalUniqueFms := 2,
                          top5MostUsedFms := "FM_Z, FM_A" } } := by decide
  exact ⟨_, h, build_top5_ranked_by_usecase_count _ _ h⟩
